import Mathlib

/-!
Verification of the bugmon triage-workflow orchestrator against its
natural-language specification.

The development shallowly embeds the Python sources:
  * src/bugmon/bug.py     (class EnhancedBug)  — namespace EnhancedBug
  * src/bugmon/bugmon.py  (class BugMonitor)   — namespace BugMonitor

Strings are modelled as lists of characters (`Str`); Python dicts as
association lists that keep insertion order, as Python dicts do.  The
regular expressions used by the sources are fixed literal patterns, so
each regex operation is embedded as an explicit scanning function whose
behaviour on every input mirrors the Python `re` semantics of that
specific pattern (leftmost match, lookbehind `(?<=\x5bbugmon:)`, the
difference between a dot, a `\x5b^]]` class and a lazy `.*?`, and the
re.sub left-to-right non-overlapping replacement discipline).
Iterated scans use explicit fuel bounded by the string length (each
iteration consumes at least one character), keeping every definition
executable by `decide`/`rfl`.
-/

/-- Character strings, modelled as lists of characters. -/
abbrev Str := List Char

/-- Command sets: ordered mapping from command name to optional value,
exactly like the Python dict built by the `commands` getters. -/
abbrev Cmds := List (Str × Option Str)

/-- The fixed marker that introduces the bugmon region in the whiteboard. -/
def markerL : Str := ("[bugmon:").toList

/-- The marker without its leading bracket; scanning resumes here when a
regex engine advances one character past a failed match at a marker. -/
def markerTail : Str := ("bugmon:").toList

/-- Python `str.split(sep)` for a one-character separator: splits at every
occurrence and keeps empty pieces. -/
def splitOnChar (c : Char) : Str → List Str
  | [] => [[]]
  | a :: rest =>
    if a = c then [] :: splitOnChar c rest
    else
      match splitOnChar c rest with
      | t :: ts => (a :: t) :: ts
      | [] => [[a]]

/-- Python `sep.join(parts)` for a one-character separator. -/
def joinChar (c : Char) : List Str → Str
  | [] => []
  | [t] => t
  | t :: ts => t ++ c :: joinChar c ts

/-- Keys of a command set, in insertion order. -/
def keysOf (m : Cmds) : List Str := m.map Prod.fst

/-- Membership test used for Python `key in dict`. -/
def dictMember (m : Cmds) (k : Str) : Bool := (keysOf m).contains k

/-- Python dict assignment `m[k] = v`: overwrite in place if the key
exists (keeping its position), otherwise append at the end. -/
def dictInsert (m : Cmds) (k : Str) (v : Option Str) : Cmds :=
  if dictMember m k then m.map (fun p => if p.1 = k then (k, v) else p)
  else m ++ [(k, v)]

/-- Python `del m[k]` (dict keys are unique, so dropping every pair with
that key is the same operation). -/
def dictRemove (m : Cmds) (k : Str) : Cmds := m.filter (fun p => p.1 ≠ k)

/-- Value lookup, Python `m.get(k)`. -/
def dictGet (m : Cmds) (k : Str) : Option (Option Str) :=
  (m.find? (fun p => p.1 = k)).map Prod.snd

/-- Serialization of one command: `key=value` when a value is present,
bare `key` otherwise (the f-string in both `commands` setters). -/
def tokenOf : Str × Option Str → Str
  | (k, some v) => k ++ '=' :: v
  | (k, none) => k

/-- The `",".join(...)` of both `commands` setters. -/
def joinParts (m : Cmds) : Str := joinChar ',' (m.map tokenOf)

/-- Parse one comma-separated token the way both `commands` getters do:
split on the first-and-only `=` — a token with two or more `=` makes the
Python tuple unpacking raise ValueError, modelled as `none`. -/
def parseToken (m : Cmds) (tok : Str) : Option Cmds :=
  if tok.contains '=' then
    match splitOnChar '=' tok with
    | [a, b] => some (dictInsert m a (some b))
    | _ => none
  else some (dictInsert m tok none)

/-- Fold of `parseToken` over all tokens of the bracketed region. -/
def parseTokens (toks : List Str) : Option Cmds := toks.foldlM parseToken []

/-- Leftmost occurrence of the marker: `some (pre, suf)` splits the text
into the part before the first occurrence of the eight marker characters
and the part after them.  This realises the scanning position of the
lookbehind `(?<=\x5bbugmon:)` used by every codec regex. -/
def splitAtMarker : Str → Option (Str × Str)
  | [] => none
  | c :: rest =>
    if markerL.isPrefixOf (c :: rest) then some ([], (c :: rest).drop 8)
    else
      match splitAtMarker rest with
      | some (pre, suf) => some (c :: pre, suf)
      | none => none

/-- Whether the marker occurs anywhere; this is exactly the success of a
search for a pattern whose tail can match the empty string, such as the
EnhancedBug setter test `(?<=\x5bbugmon:)(\x5b^]]*)`. -/
def containsMarker (w : Str) : Bool := (splitAtMarker w).isSome

/-- Search of the EnhancedBug getter pattern `(?<=\x5bbugmon:)\x5b^]]+`:
at each marker occurrence, the run of non-`]` characters after it must be
non-empty, otherwise scanning continues one character past the opening
bracket.  Fuel decreases every iteration; each iteration shortens the
scanned text, so fuel equal to the length suffices. -/
def searchPlusF : Nat → Str → Option Str
  | 0, _ => none
  | fuel + 1, w =>
    match splitAtMarker w with
    | none => none
    | some (_, rest) =>
      let run := rest.takeWhile (fun c => c != ']')
      if run.isEmpty then searchPlusF fuel (markerTail ++ rest) else some run

/-- Search of the BugMonitor getter pattern `(?<=\x5bbugmon:).\x5b^\]]*`:
after the marker there must be one character that is not a newline (the
dot; it may be `]`), then the longest run of non-`]` characters. -/
def searchDotF : Nat → Str → Option Str
  | 0, _ => none
  | fuel + 1, w =>
    match splitAtMarker w with
    | none => none
    | some (_, rest) =>
      match rest with
      | [] => searchDotF fuel markerTail
      | d :: t =>
        if d = '\n' then searchDotF fuel (markerTail ++ rest)
        else some (d :: t.takeWhile (fun c => c != ']'))

/-- EnhancedBug.commands getter (bug.py lines 160-176): an empty
whiteboard yields no commands; an absent region yields no commands; a
token with several `=` raises, modelled as `none`. -/
def EnhancedBug.commandsGet (w : Str) : Option Cmds :=
  if w.isEmpty then some []
  else
    match searchPlusF w.length w with
    | none => some []
    | some group => parseTokens (splitOnChar ',' group)

/-- BugMonitor.commands getter (bugmon.py lines 302-318); identical shape
but with the dot-pattern region search. -/
def BugMonitor.commandsGet (w : Str) : Option Cmds :=
  if w.isEmpty then some []
  else
    match searchDotF w.length w with
    | none => some []
    | some group => parseTokens (splitOnChar ',' group)

/-- re.sub of `(?<=\x5bbugmon:)(\x5b^]]*)` with a replacement free of
backslashes: at every marker occurrence, the (possibly empty) maximal run
of non-`]` characters after it is replaced; scanning resumes after the
replaced run, which for the empty-run case Python realises by copying one
character and moving on — both resume points coincide with rescanning the
remaining suffix. -/
def subIntF (parts : Str) : Nat → Str → Str
  | 0, w => w
  | fuel + 1, w =>
    match splitAtMarker w with
    | none => w
    | some (pre, rest) =>
      pre ++ markerL ++ parts ++ subIntF parts fuel (rest.dropWhile (fun c => c != ']'))

/-- re.sub of the BugMonitor pattern `(?<=\x5bbugmon:)(.\x5b^\]]*)`: the
dot must match one non-newline character (possibly `]` itself); when it
cannot, the engine advances one character past the opening bracket. -/
def subIntDotF (parts : Str) : Nat → Str → Str
  | 0, w => w
  | fuel + 1, w =>
    match splitAtMarker w with
    | none => w
    | some (pre, rest) =>
      match rest with
      | [] => pre ++ '[' :: subIntDotF parts fuel markerTail
      | d :: t =>
        if d = '\n' then pre ++ '[' :: subIntDotF parts fuel (markerTail ++ rest)
        else pre ++ markerL ++ parts ++ subIntDotF parts fuel (t.dropWhile (fun c => c != ']'))

/-- re.sub of the EnhancedBug removal pattern `(\x5bbugmon:.*?])` with the
empty replacement: the lazy dot-run cannot cross a newline and must be
closed by `]`; a marker occurrence that is never closed is not a match and
the engine advances one character. -/
def removeF : Nat → Str → Str
  | 0, w => w
  | fuel + 1, w =>
    match splitAtMarker w with
    | none => w
    | some (pre, rest) =>
      match rest.dropWhile (fun c => c != ']' && c != '\n') with
      | ']' :: t => pre ++ removeF fuel t
      | _ => pre ++ '[' :: removeF fuel (markerTail ++ rest)

/-- Characters of the accidental character class in the BugMonitor setter
pattern `(\x5bbugmon:.\x5b^\]]*)`, whose leading bracket opens a class
rather than matching a literal bracket. -/
def classChars : Str := ("bugmon:.[^]").toList

/-- re.sub of that accidental class pattern with the empty replacement:
every character belonging to the class is deleted. -/
def removeClassChars (w : Str) : Str := w.filter (fun c => !(classChars.contains c))

/-- EnhancedBug.commands setter (bug.py lines 178-195).  The replacement
string handed to re.sub is `parts`; Python expands backslash escapes in
it, so this literal-insertion model is faithful exactly when `parts`
contains no backslash — the round-trip theorems assume that. -/
def EnhancedBug.commandsSet (value : Cmds) (w : Str) : Str :=
  let parts := joinParts value
  if parts.isEmpty then removeF w.length w
  else if containsMarker w then subIntF parts w.length w
  else w ++ markerL ++ parts ++ [']']

/-- BugMonitor.commands setter (bugmon.py lines 320-338).  Reading the
current commands can raise (several `=` in a token), hence the Option. -/
def BugMonitor.commandsSet (value : Cmds) (w : Str) : Option Str :=
  let parts := joinParts value
  if !parts.isEmpty then
    if (searchDotF w.length w).isSome then
      match BugMonitor.commandsGet w with
      | none => none
      | some cur =>
        if !cur.isEmpty then some (subIntDotF parts w.length w)
        else some (removeClassChars w)
    else some (w ++ markerL ++ parts ++ [']'])
  else some (subIntDotF [] w.length w)

/-- BugMonitor.add_command (bugmon.py lines 340-347). -/
def BugMonitor.addCommand (w : Str) (k : Str) (v : Option Str) : Option Str := do
  let cur ← BugMonitor.commandsGet w
  BugMonitor.commandsSet (dictInsert cur k v) w

/-- BugMonitor.remove_command (bugmon.py lines 349-358); deleting an
absent key leaves the dict unchanged but the set-back still happens. -/
def BugMonitor.removeCommand (w : Str) (k : Str) : Option Str := do
  let cur ← BugMonitor.commandsGet w
  BugMonitor.commandsSet (dictRemove cur k) w

/-!
EnhancedBug metadata extraction (bug.py).
-/

/-- Character class of the name part of the env-variable pattern
`(\x5ba-z0-9_]+=\x5ba-z0-9])` under re.IGNORECASE. -/
def isEnvNameChar (c : Char) : Bool :=
  (('a' ≤ c && c ≤ 'z') || ('A' ≤ c && c ≤ 'Z') || ('0' ≤ c && c ≤ '9') || c = '_')

/-- Character class of the first value character of that pattern. -/
def isEnvValChar (c : Char) : Bool :=
  (('a' ≤ c && c ≤ 'z') || ('A' ≤ c && c ≤ 'Z') || ('0' ≤ c && c ≤ '9'))

/-- Success of `re.match(r"(\x5ba-z0-9_]+=\x5ba-z0-9])", token, re.IGNORECASE)`:
the name class cannot contain `=`, so the match succeeds exactly when the
maximal leading name run is non-empty, is followed by `=`, and the next
character is in the value class. -/
def envTokenMatches (tok : Str) : Bool :=
  let name := tok.takeWhile isEnvNameChar
  match tok.drop name.length with
  | '=' :: c :: _ => !name.isEmpty && isEnvValChar c
  | _ => false

/-- Backtick stripping applied to tokens of comment zero. -/
def stripTicks (tok : Str) : Str :=
  if tok.head? = some '`' && tok.getLast? = some '`' then (tok.drop 1).dropLast else tok

/-- EnhancedBug.env (bug.py lines 208-223): tokenize comment zero on
spaces, strip backticks, keep tokens matching the env-variable pattern,
split each such token on `=` into exactly two parts — a matching token
with two or more `=` makes the unpacking raise ValueError (`none`). -/
def EnhancedBug.env (commentZero : Str) : Option (List (Str × Str)) :=
  (splitOnChar ' ' commentZero).foldlM
    (fun m tok => do
      let tok := stripTicks tok
      if envTokenMatches tok then
        match splitOnChar '=' tok with
        | [a, b] =>
          pure (if (m.map Prod.fst).contains a then
                  m.map (fun p => if p.1 = a then (a, b) else p)
                else m ++ [(a, b)])
        | _ => none
      else pure m)
    []

/-- The bug record's version field as delivered by the tracker: either a
JSON integer or a string. -/
inductive VField where
  | intV (n : Int)
  | strV (s : Str)
deriving DecidableEq, Repr

/-- EnhancedBug.version (bug.py lines 289-297): an integer field is
returned as is, anything else falls back to the current central version. -/
def EnhancedBug.version (centralVersion : Int) : VField → Int
  | .intV n => n
  | .strV _ => centralVersion

/-- EnhancedBug.branches (bug.py lines 101-122): central/beta/release are
offsets from the central version; ESR aliases resolved externally are
appended with their numeric versions (resolution failures are swallowed,
so the ESR suffix is a parameter). -/
def EnhancedBug.branches (centralVersion : Int) (esr : List (Str × Int)) :
    List (Str × Int) :=
  [(("central").toList, centralVersion),
   (("beta").toList, centralVersion - 1),
   (("release").toList, centralVersion - 2)] ++ esr

/-- EnhancedBug.branch (bug.py lines 88-99): the first alias whose mapped
version equals the bug's derived version. -/
def EnhancedBug.branch (centralVersion : Int) (esr : List (Str × Int))
    (vf : VField) : Option Str :=
  ((EnhancedBug.branches centralVersion esr).find?
      (fun p => p.2 = EnhancedBug.version centralVersion vf)).map Prod.fst

/-- EnhancedBug.diff (bug.py lines 357-368): the external bugsy diff
(an arbitrary changed-field dict here) with the attachments and comments
keys popped. -/
def EnhancedBug.diff (changed : List (Str × Str)) : List (Str × Str) :=
  (changed.filter (fun p => p.1 ≠ ("attachments").toList)).filter
    (fun p => p.1 ≠ ("comments").toList)

/-- EnhancedBug.to_dict (bug.py lines 391-398): every key except
attachments and comments. -/
def EnhancedBug.toDict (bug : List (Str × Str)) : List (Str × Str) :=
  bug.filter (fun p =>
    !((["attachments", "comments"].map String.toList).contains p.1))

/-!
BugMonitor state machine (bugmon.py).  The three external collaborators
(build fetcher, evaluator, bisection engine) and the externally fetched
values (central version, ESR aliases, the 30-day clock comparison) are
supplied as a pure environment; the monitor state carries the mutable bug
record (current fields plus the last-fetched snapshot that the bugsy diff
compares against), the finding queue, the close flag and the dry-run flag.
Two instrumentation fields record the externally observable calls the
claims speak about: the number of evaluator invocations and the list of
bisection invocations with their find_fix flag.
-/

/-- The three possible workflow actions of RequestedActions. -/
inductive WfAction where
  | verifyF
  | confirmO
  | bisectA
deriving DecidableEq, Repr

/-- Reproduction statuses of class ReproductionResult (PASSED=0,
CRASHED=1, FAILED=2, NO_BUILD=3). -/
inductive RStatus where
  | passed
  | crashed
  | failed
  | noBuild
deriving DecidableEq, Repr

/-- A reproduction result: status plus optional build descriptor. -/
structure ReproRes where
  status : RStatus
  buildStr : Option Str
deriving DecidableEq, Repr

/-- Evaluator verdicts (Bisector.BUILD_CRASHED / BUILD_PASSED / other). -/
inductive EvalStatus where
  | crashed
  | passed
  | other
deriving DecidableEq, Repr

/-- A build resolved by the external fetcher. -/
structure Build where
  buildId : Str
  changeset : Str
deriving DecidableEq, Repr

/-- Result of the external bisection engine. -/
structure BisectOutcome where
  success : Bool
  startChangeset : Str
  startBuildId : Str
  endChangeset : Str
  endBuildId : Str
  pushlog : Str
  message : Str
deriving DecidableEq, Repr

/-- Pure environment of external collaborators and externally fetched
constants, fixed for one orchestration run. -/
structure ExtEnv where
  centralVersion : Int
  esrBranches : List Str
  fetch : Str → Str → Bool → Option Build
  evalTc : Build → EvalStatus
  bisectRes : Bool → BisectOutcome
  heartbeatDue : Bool
  buildFlagsStr : Str

/-- The mutable bug-record fields the monitor writes through bugsy. -/
structure BugFields where
  status : Str
  whiteboard : Str
  keywords : List Str
  cfStatus : List (Str × Str)
deriving DecidableEq, Repr

/-- Monitor state: current bug fields, the last-fetched snapshot the
bugsy diff is computed against, the read-only bug data the extractors
consume, the finding queue, flags, and the two instrumentation fields. -/
structure MonState where
  cur : BugFields
  snap : BugFields
  resolution : Str
  bugVersionField : Str
  commentZero : Str
  creationTime : Str
  dryRun : Bool
  queue : List Str
  closeBug : Bool
  evalCount : Nat
  bisectCalls : List Bool
deriving DecidableEq, Repr

/-- BugMonitor.version (bugmon.py lines 127-133): the leading-digit match
of the bug's version string, or the central version integer.  The two
arms have different Python types (str vs int), which matters for the
branch comparison below and is kept as a sum. -/
def BugMonitor.version (env : ExtEnv) (s : MonState) : Sum Str Int :=
  let digits := s.bugVersionField.takeWhile (fun c => c.isDigit)
  if !digits.isEmpty then Sum.inl digits else Sum.inr env.centralVersion

/-- BugMonitor.branches (bugmon.py lines 148-169): version table; the ESR
entries map the resolved alias string to itself. -/
def BugMonitor.branches (env : ExtEnv) : List (Str × Sum Str Int) :=
  [(("central").toList, Sum.inr env.centralVersion),
   (("beta").toList, Sum.inr (env.centralVersion - 1)),
   (("release").toList, Sum.inr (env.centralVersion - 2))] ++
    env.esrBranches.map (fun r => (r, Sum.inl r))

/-- BugMonitor.branch (bugmon.py lines 136-146): first alias whose table
value equals the derived version (Python equality: a string never equals
an int). -/
def BugMonitor.branch (env : ExtEnv) (s : MonState) : Option Str :=
  ((BugMonitor.branches env).find?
      (fun p => p.2 = BugMonitor.version env s)).map Prod.fst

/-- BugMonitor._needs_bisect (bugmon.py lines 413-422). -/
def BugMonitor.needsBisect (cmds : Cmds) : Bool :=
  if dictMember cmds (("bisected").toList) then false
  else if dictMember cmds (("bisect").toList) then true
  else false

/-- BugMonitor._needs_confirm (bugmon.py lines 424-435). -/
def BugMonitor.needsConfirm (cmds : Cmds) (status : Str) : Bool :=
  if dictMember cmds (("confirmed").toList) then false
  else if dictMember cmds (("confirm").toList) then true
  else if (["ASSIGNED", "NEW", "UNCONFIRMED", "REOPENED"].map
      String.toList).contains status then true
  else false

/-- BugMonitor._needs_verify (bugmon.py lines 437-448). -/
def BugMonitor.needsVerify (cmds : Cmds) (status resolution : Str) : Bool :=
  if dictMember cmds (("verified").toList) then false
  else if dictMember cmds (("verify").toList) then true
  else if status = ("RESOLVED").toList && resolution = ("FIXED").toList then true
  else false

/-- Rendering of an optional build descriptor inside an f-string (Python
renders None as the text None). -/
def fmtOpt (o : Option Str) : Str := o.getD (("None").toList)

/-- Twelve-character-or-forty-character lowercase hex revision test, the
anchored `^(\x5ba-f0-9]{12}|\x5ba-f0-9]{40})$` without IGNORECASE
(bugmon.py line 232). -/
def isRevLower (t : Str) : Bool :=
  (t.length = 12 || t.length = 40) &&
    t.all (fun c => ('a' ≤ c && c ≤ 'f') || ('0' ≤ c && c ≤ '9'))

/-- The same pattern under re.IGNORECASE (bugmon.py line 241). -/
def isRevCI (t : Str) : Bool :=
  (t.length = 12 || t.length = 40) &&
    t.all (fun c => ('a' ≤ c && c ≤ 'f') || ('A' ≤ c && c ≤ 'F') ||
      ('0' ≤ c && c ≤ '9'))

/-- The build-identifier pattern `^(\x5b0-9]{8}-)(\x5ba-f0-9]{12})$` under
re.IGNORECASE (bugmon.py line 245). -/
def isBuildIdCI (t : Str) : Bool :=
  match splitOnChar '-' t with
  | [d, r] => d.length = 8 && d.all (fun c => '0' ≤ c && c ≤ '9') && isRevCI r
  | _ => false

/-- One token of the comment-zero scan of initial_build_id: backticks
stripped, then the revision pattern, then the build-identifier pattern
whose revision segment is extracted via split("-")[1]. -/
def buildIdToken (tok : Str) : Option Str :=
  let tok := stripTicks tok
  if isRevCI tok then some tok
  else if isBuildIdCI tok then some ((splitOnChar '-' tok).getD 1 [])
  else none

/-- BugMonitor.initial_build_id (bugmon.py lines 226-253).  Reading the
commands can raise; an `origRev` command whose value is absent makes
re.match raise TypeError (`none`).  When the origRev value is a valid
revision the source assigns the literal list `\x5b"origRev"]` instead of
the value — a slip; the claims never reach that branch, and the value
passed onward is modelled as that literal token text. -/
def BugMonitor.initialBuildId (s : MonState) : Option Str := do
  let cmds ← BugMonitor.commandsGet s.cur.whiteboard
  match dictGet cmds (("origRev").toList) with
  | some none => none
  | some (some v) =>
    if isRevLower v then pure (("origRev").toList)
    else fallback
  | none => fallback
where
  fallback : Option Str :=
    match (splitOnChar ' ' s.commentZero).findSome? buildIdToken with
    | some bid => some bid
    | none => some (s.creationTime.takeWhile (fun c => c != 'T'))

/-- BugMonitor.reproduce_bug (bugmon.py lines 637-667): fetch the build
("latest" with no search hint when no identifier is given, ascending
nearest otherwise); a fetcher failure yields NO_BUILD; otherwise run the
evaluator (counted) and translate its verdict.  The build descriptor uses
self.branch — the bug's own branch — even when reproducing another
branch, exactly as the source f-string does. -/
def BugMonitor.reproduceBug (env : ExtEnv) (s : MonState) (branch : Str)
    (buildId : Option Str) : MonState × ReproRes :=
  let arg := match buildId with
    | none => ((("latest").toList : Str), false)
    | some b => (b, true)
  match env.fetch branch arg.1 arg.2 with
  | none => (s, ⟨.noBuild, none⟩)
  | some build =>
    let s1 := { s with evalCount := s.evalCount + 1 }
    let bstr := ("mozilla-").toList ++ fmtOpt (BugMonitor.branch env s) ++
      ' ' :: build.buildId ++ '-' :: build.changeset.take 12
    match env.evalTc build with
    | .crashed => (s1, ⟨.crashed, some bstr⟩)
    | .passed => (s1, ⟨.passed, some bstr⟩)
    | .other => (s1, ⟨.failed, some bstr⟩)

/-- BugMonitor.report (bugmon.py lines 669-678): queue every message (the
log echo has no state effect). -/
def BugMonitor.report (s : MonState) (messages : List Str) : MonState :=
  { s with queue := s.queue ++ messages }

/-- Convenience for writing the whiteboard back into the current fields. -/
def putWhiteboard (s : MonState) (w : Str) : MonState :=
  { s with cur := { s.cur with whiteboard := w } }

/-- BugMonitor._bisect (bugmon.py lines 524-574): compute the bounds
(which reads initial_build_id and may raise), call the engine (recorded
with its find_fix flag), then always mark `bisected`, clear `bisect`, and
report the outcome lines. -/
def BugMonitor.bisectAct (env : ExtEnv) (s : MonState) (findFix : Bool) :
    Option MonState := do
  let _bounds ← BugMonitor.initialBuildId s
  let s := { s with bisectCalls := s.bisectCalls ++ [findFix] }
  let r := env.bisectRes findFix
  let w1 ← BugMonitor.addCommand s.cur.whiteboard (("bisected").toList) none
  let s := putWhiteboard s w1
  let cur ← BugMonitor.commandsGet s.cur.whiteboard
  let s ←
    if dictMember cur (("bisect").toList) then do
      let w2 ← BugMonitor.removeCommand s.cur.whiteboard (("bisect").toList)
      pure (putWhiteboard s w2)
    else pure s
  let startLine := ("> Start: ").toList ++ r.startChangeset ++
    (" (").toList ++ r.startBuildId ++ (")").toList
  let endLine := ("> End: ").toList ++ r.endChangeset ++
    (" (").toList ++ r.endBuildId ++ (")").toList
  if !r.success then
    pure (BugMonitor.report s
      [("Failed to bisect testcase (").toList ++ r.message ++ ("):").toList,
       startLine, endLine,
       ("> BuildFlags: ").toList ++ env.buildFlagsStr])
  else
    let verb := if findFix then ("fixed").toList else ("introduced").toList
    pure (BugMonitor.report s
      [("The bug appears to have been ").toList ++ verb ++
         (" in the following build range:").toList,
       startLine, endLine,
       ("> Pushlog: ").toList ++ r.pushlog])

/-- The unconditional tail of BugMonitor._confirm_open (bugmon.py lines
478-481): set the `confirmed` marker and drop the `confirm` request. -/
def BugMonitor.confirmMark (s : MonState) : Option MonState := do
  let w1 ← BugMonitor.addCommand s.cur.whiteboard (("confirmed").toList) none
  let s := putWhiteboard s w1
  let cur ← BugMonitor.commandsGet s.cur.whiteboard
  if dictMember cur (("confirm").toList) then do
    let w2 ← BugMonitor.removeCommand s.cur.whiteboard (("confirm").toList)
    pure (putWhiteboard s w2)
  else pure s

/-- BugMonitor._confirm_open (bugmon.py lines 450-481): on a crash,
either escalate into a regression bisect (when not yet confirmed) or emit
the 30-day heartbeat; on a pass, retest the initial build and either
bisect for the fix or report both builds exonerated and mark for closure;
in every case mark `confirmed` and clear `confirm`. -/
def BugMonitor.confirmOpen (env : ExtEnv) (s : MonState)
    (baseline : ReproRes) : Option MonState := do
  let s ←
    if baseline.status = .crashed then do
      let cur ← BugMonitor.commandsGet s.cur.whiteboard
      if !dictMember cur (("confirmed").toList) then
        let s := BugMonitor.report s
          [("Verified bug as reproducible on ").toList ++
            fmtOpt baseline.buildStr ++ (".").toList]
        BugMonitor.bisectAct env s false
      else if env.heartbeatDue then
        pure (BugMonitor.report s
          [("Bug remains reproducible on ").toList ++ fmtOpt baseline.buildStr])
      else pure s
    else if baseline.status = .passed then do
      let bid ← BugMonitor.initialBuildId s
      let r := BugMonitor.reproduceBug env s
        (fmtOpt (BugMonitor.branch env s)) (some bid)
      let s1 := r.1
      let orig := r.2
      let s2 ←
        if orig.status = .crashed then BugMonitor.bisectAct env s1 true
        else
          pure (BugMonitor.report s1
            [("Unable to reproduce bug using the following builds:").toList,
             ("> ").toList ++ fmtOpt baseline.buildStr,
             ("> ").toList ++ fmtOpt orig.buildStr])
      pure { s2 with closeBug := true }
    else pure s
  BugMonitor.confirmMark s

/-- Flag-field name for one branch entry of the sweep: numeric release
numbers use cf_status_firefoxNN, ESR alias strings use
cf_status_firefox_alias (bugmon.py lines 508-512). -/
def flagNameOf : Str × Sum Str Int → Str
  | (_, Sum.inr n) => ("cf_status_firefox").toList ++ (toString n).toList
  | (_, Sum.inl r) => ("cf_status_firefox_").toList ++ r

/-- Value of a tracker flag field on the current bug record. -/
def getFlag (s : MonState) (flag : Str) : Str :=
  ((s.cur.cfStatus.find? (fun p => p.1 = flag)).map Prod.snd).getD []

/-- Functional update of a tracker flag field. -/
def setFlag (s : MonState) (flag : Str) (v : Str) : MonState :=
  let updated := s.cur.cfStatus.map (fun p => if p.1 = flag then (p.1, v) else p)
  { s with cur := { s.cur with cfStatus := updated } }

/-- The per-branch flag sweep at the end of _verify_fixed (bugmon.py
lines 508-522): for every branch whose flag is fixed, reproduce on that
branch and move the flag to verified or affected. -/
def BugMonitor.sweepBranches (env : ExtEnv) :
    MonState → List (Str × Sum Str Int) → MonState
  | s, [] => s
  | s, entry :: rest =>
    let flag := flagNameOf entry
    if getFlag s flag = ("fixed").toList then
      let r := BugMonitor.reproduceBug env s entry.1 none
      let s2 :=
        if r.2.status = .passed then setFlag r.1 flag (("verified").toList)
        else if r.2.status = .crashed then setFlag r.1 flag (("affected").toList)
        else r.1
      BugMonitor.sweepBranches env s2 rest
    else BugMonitor.sweepBranches env s rest

/-- BugMonitor._verify_fixed (bugmon.py lines 483-522): on a pass at the
baseline, cross-check the initial build (report inconclusive or verified,
setting VERIFIED) and mark for closure; on a crash, only report that the
bug still reproduces; then sweep the branch flags. -/
def BugMonitor.verifyFixed (env : ExtEnv) (s : MonState)
    (baseline : ReproRes) : Option MonState := do
  let buildStr := fmtOpt baseline.buildStr
  let s ←
    if baseline.status = .passed then do
      let bid ← BugMonitor.initialBuildId s
      let r := BugMonitor.reproduceBug env s
        (fmtOpt (BugMonitor.branch env s)) (some bid)
      let s1 := r.1
      let s2 :=
        if r.2.status ≠ .crashed then
          BugMonitor.report s1
            [("Bug appears to be fixed on rev ").toList ++ buildStr ++
              (" but BugMon was unable to reproduce using the initial build.").toList]
        else
          let s' := BugMonitor.report s1
            [("Verified bug as fixed on rev ").toList ++ buildStr ++ (".").toList]
          { s' with cur := { s'.cur with status := ("VERIFIED").toList } }
      pure { s2 with closeBug := true }
    else if baseline.status = .crashed then
      pure (BugMonitor.report s
        [("Bug is marked as FIXED but still reproduces on ").toList ++
          buildStr ++ (".").toList])
    else pure s
  pure (BugMonitor.sweepBranches env s (BugMonitor.branches env))

/-- Names of the changed fields, the bugsy Bug.diff of the in-memory bug
record against its last-fetched snapshot. -/
def diffOf (s : MonState) : List Str :=
  (if s.cur.status ≠ s.snap.status then [(("status").toList : Str)] else []) ++
  (if s.cur.whiteboard ≠ s.snap.whiteboard then [(("whiteboard").toList : Str)] else []) ++
  (if s.cur.keywords ≠ s.snap.keywords then [(("keywords").toList : Str)] else []) ++
  ((s.cur.cfStatus.filter (fun p =>
      ((s.snap.cfStatus.find? (fun q => q.1 = p.1)).map Prod.snd) ≠ some p.2)).map
    Prod.fst)

/-- Externally visible effects of one commit step. -/
structure UpdEffects where
  loggedDiff : Option (List Str)
  putCalled : Bool
  commentPosted : Option Str
deriving DecidableEq, Repr

/-- BugMonitor.update (bugmon.py lines 680-701): drop the tracking
keyword when marked for closure (queueing the standing note), compute and
log the non-empty diff, and — only outside dry-run — push the diff
(refreshing the snapshot) and post the queued comment, clearing the
queue.  The comment is posted even when the queue is empty, and the queue
is cleared only outside dry-run, both exactly as in the source. -/
def BugMonitor.updateCommit (s : MonState) : MonState × UpdEffects :=
  let d := diffOf s
  let logged := if !d.isEmpty then some d else none
  let doPut := !d.isEmpty && !s.dryRun
  let s := if doPut then { s with snap := s.cur } else s
  if !s.dryRun then
    ({ s with queue := [] },
     ⟨logged, doPut,
      some (("Bugmon Analysis:\n").toList ++ joinChar '\n' s.queue)⟩)
  else (s, ⟨logged, doPut, none⟩)

def BugMonitor.update (s : MonState) : MonState × UpdEffects :=
  BugMonitor.updateCommit
    (if s.closeBug && s.cur.keywords.contains (("bugmon").toList) then
      BugMonitor.report
        { s with cur := { s.cur with
            keywords := s.cur.keywords.erase (("bugmon").toList) } }
        [("Removing bugmon keyword as no further action possible.").toList,
         ("Please review the bug and re-add the keyword for further analysis.").toList]
    else s)

/-- Dispatch of one action inside the process loop (bugmon.py lines
624-630); the bisect action derives find_fix from the baseline status. -/
def BugMonitor.runAction (env : ExtEnv) (baseline : ReproRes)
    (s : MonState) : WfAction → Option MonState
  | .verifyF => BugMonitor.verifyFixed env s baseline
  | .confirmO => BugMonitor.confirmOpen env s baseline
  | .bisectA => BugMonitor.bisectAct env s (baseline.status = .passed)

/-- The action-selection list built by process (bugmon.py lines 590-598):
all three eligibility predicates are tested and every eligible action is
appended, in the order verify, confirm, bisect. -/
def BugMonitor.selectActions (cmds : Cmds) (status resolution : Str) :
    List WfAction :=
  (if BugMonitor.needsVerify cmds status resolution then [WfAction.verifyF] else []) ++
  (if BugMonitor.needsConfirm cmds status then [WfAction.confirmO] else []) ++
  (if BugMonitor.needsBisect cmds then [WfAction.bisectA] else [])

/-- BugMonitor.process (bugmon.py lines 576-635): bail out (reporting and
closing) without a resolvable branch; select the eligible actions; run
the baseline reproduction gate twice, exactly as the source does before
and after changing directory; execute every selected action in order;
commit.  Returns the final state and the list of actions the loop
executed.  In the unsupported-branch arm the source passes a list to
report, queueing a single (list-valued) entry; its rendered text is
queued here. -/
def BugMonitor.process (env : ExtEnv) (s : MonState) :
    Option (MonState × List WfAction) := do
  match BugMonitor.branch env s with
  | none =>
    let s := BugMonitor.report s
      [("Bug filed against non-supported branch").toList]
    let s := { s with closeBug := true }
    pure ((BugMonitor.update s).1, [])
  | some br =>
    let cmds ← BugMonitor.commandsGet s.cur.whiteboard
    let actions := BugMonitor.selectActions cmds s.cur.status s.resolution
    if actions.isEmpty then pure (s, [])
    else
      let r1 := BugMonitor.reproduceBug env s br none
      if r1.2.status = .noBuild then pure (r1.1, [])
      else if r1.2.status = .failed then pure (r1.1, [])
      else
        let r2 := BugMonitor.reproduceBug env r1.1 br none
        if r2.2.status = .noBuild then pure (r2.1, [])
        else if r2.2.status = .failed then pure (r2.1, [])
        else do
          let s ← actions.foldlM (BugMonitor.runAction env r2.2) r2.1
          pure ((BugMonitor.update s).1, actions)

/-- Characters both codecs pass through verbatim: everything except the
separators `=` and `,`, the region terminator `]`, the re.sub replacement
escape `\`, and (for the BugMonitor dot patterns) the newline. -/
def goodChar (c : Char) : Bool :=
  (c != '=') && (c != ',') && (c != ']') && (c != '\\') && (c != '\n')

/-- A command set every codec operation handles faithfully. -/
def NiceCmds (m : Cmds) : Prop :=
  (∀ p ∈ m, p.1 ≠ [] ∧ (∀ c ∈ p.1, goodChar c = true) ∧
    ∀ v, p.2 = some v → ∀ c ∈ v, goodChar c = true) ∧ (keysOf m).Nodup

instance (m : Cmds) : Decidable (NiceCmds m) := by
  unfold NiceCmds
  infer_instance

/-- The canonical whiteboard of a command set: nothing for the empty set,
one bracketed region otherwise. -/
def canonical (m : Cmds) : Str :=
  if m.isEmpty then [] else markerL ++ (joinParts m ++ [']'])
/-- Equality of the state components no action handler modifies. -/
def SameCore (s t : MonState) : Prop :=
  t.cur.status = s.cur.status ∧ t.cur.keywords = s.cur.keywords ∧
  t.cur.cfStatus = s.cur.cfStatus ∧ t.snap = s.snap ∧
  t.resolution = s.resolution ∧ t.bugVersionField = s.bugVersionField ∧
  t.commentZero = s.commentZero ∧ t.creationTime = s.creationTime ∧
  t.dryRun = s.dryRun
/-- Canonical-state invariant carried across action handlers: the
whiteboard canonically encodes a nice command set whose origRev entry,
when present, has a value. -/
def CanonInv (s : MonState) : Prop :=
  ∃ m, NiceCmds m ∧ s.cur.whiteboard = canonical m ∧
    dictGet m (("origRev").toList) ≠ some none
/-- Texts with at most one bugmon region: after the first region there is
no further marker occurrence. -/
def noSecondRegion (T : Str) : Bool :=
  match splitAtMarker T with
  | none => true
  | some (_, rest) => !containsMarker (rest.dropWhile (fun c => c != ']'))
/-!
Concrete test fixtures used by witnesses and counterexamples.
-/

/-- An environment whose fetch always resolves one build, whose evaluator
always reports a crash and whose bisection succeeds. -/
def envA : ExtEnv where
  centralVersion := 99
  esrBranches := []
  fetch := fun _ _ _ =>
    some ⟨("20240101000000").toList, ("0123456789abcdef").toList⟩
  evalTc := fun _ => EvalStatus.crashed
  bisectRes := fun _ =>
    ⟨true, ("aaa").toList, ("b1").toList, ("ccc").toList, ("b2").toList,
      ("http-pushlog").toList, ("ok").toList⟩
  heartbeatDue := false
  buildFlagsStr := ("BuildFlags").toList

/-- Bug fields requesting both verify and confirm. -/
def fieldsA : BugFields where
  status := ("NEW").toList
  whiteboard := ("[bugmon:verify,confirm]").toList
  keywords := [("bugmon").toList]
  cfStatus :=
    [((("cf_status_firefox99").toList : Str), (("affected").toList : Str)),
     ((("cf_status_firefox98").toList : Str), (("affected").toList : Str)),
     ((("cf_status_firefox97").toList : Str), (("affected").toList : Str))]

/-- A dry-run monitor state over fieldsA. -/
def stateA : MonState where
  cur := fieldsA
  snap := fieldsA
  resolution := []
  bugVersionField := ("unspecified").toList
  commentZero := ("crash").toList
  creationTime := ("2021-03-04T10:00:00Z").toList
  dryRun := true
  queue := []
  closeBug := false
  evalCount := 0
  bisectCalls := []

/-- The command set encoded in stateA's whiteboard. -/
def cmdsA : Cmds := [((("verify").toList : Str), none), ((("confirm").toList : Str), none)]

/-!
Scanning lemmas.  The central tool is `splitAtMarker`; everything about
the codecs reduces to how it behaves on texts decomposed around the first
marker occurrence.
-/

theorem markerL_eq : markerL = ['[', 'b', 'u', 'g', 'm', 'o', 'n', ':'] := rfl

theorem isPre_self_append (l x : Str) : l.isPrefixOf (l ++ x) = true := by
  induction l with
  | nil => simp [List.isPrefixOf]
  | cons a as ih => simp [List.isPrefixOf, ih]

theorem isPre_append (l w y : Str) (h : l.length ≤ w.length) :
    l.isPrefixOf (w ++ y) = l.isPrefixOf w := by
  induction l generalizing w with
  | nil => simp [List.isPrefixOf]
  | cons a as ih =>
    cases w with
    | nil => simp at h
    | cons b bs =>
      simp only [List.cons_append, List.isPrefixOf, List.append_eq]
      rw [ih bs (by simpa using h)]

theorem take_of_isPre (l w : Str) (h : l.isPrefixOf w = true) :
    w.take l.length = l := by
  induction l generalizing w with
  | nil => simp
  | cons a as ih =>
    cases w with
    | nil => simp [List.isPrefixOf] at h
    | cons b bs =>
      simp only [List.isPrefixOf, Bool.and_eq_true, beq_iff_eq] at h
      simp [h.1, ih bs h.2]

theorem marker_no_overlap (S X : Str) (h1 : S ≠ []) (h7 : S.length ≤ 7) :
    markerL.isPrefixOf (S ++ (markerL ++ X)) = false := by
  by_contra hc
  have htrue : markerL.isPrefixOf (S ++ (markerL ++ X)) = true := by
    revert hc; cases markerL.isPrefixOf (S ++ (markerL ++ X)) <;> simp
  have htake := take_of_isPre _ _ htrue
  have hlen : markerL.length = 8 := rfl
  rw [hlen, List.take_append_eq_append_take,
    List.take_of_length_le (by omega)] at htake
  have hdrop := congrArg (List.drop S.length) htake
  rw [List.drop_left] at hdrop
  have hS1 : 1 ≤ S.length := by
    cases S with
    | nil => exact absurd rfl h1
    | cons _ _ => simp
  have htk : (markerL ++ X).take (8 - S.length) = markerL.take (8 - S.length) := by
    rw [List.take_append_eq_append_take]
    have h0 : 8 - S.length - markerL.length = 0 := by rw [hlen]; omega
    rw [h0]
    simp
  rw [htk] at hdrop
  set n := S.length with hn
  interval_cases n <;> exact absurd hdrop.symm (by decide)

theorem splitAtMarker_cons (c : Char) (rest : Str) :
    splitAtMarker (c :: rest) =
      if markerL.isPrefixOf (c :: rest) then some ([], (c :: rest).drop 8)
      else
        match splitAtMarker rest with
        | some (pre, suf) => some (c :: pre, suf)
        | none => none := rfl

theorem splitAtMarker_none_cons {c : Char} {rest : Str}
    (h : splitAtMarker (c :: rest) = none) :
    markerL.isPrefixOf (c :: rest) = false ∧ splitAtMarker rest = none := by
  rw [splitAtMarker_cons] at h
  by_cases hp : markerL.isPrefixOf (c :: rest) = true
  · simp [hp] at h
  · have hp' : markerL.isPrefixOf (c :: rest) = false := by
      revert hp; cases markerL.isPrefixOf (c :: rest) <;> simp
    refine ⟨hp', ?_⟩
    rw [hp'] at h
    simp only [Bool.false_eq_true, if_false] at h
    cases hs : splitAtMarker rest with
    | none => rfl
    | some p => rw [hs] at h; cases p; simp at h

theorem splitAtMarker_self (X : Str) :
    splitAtMarker (markerL ++ X) = some ([], X) := by
  have h : markerL ++ X = '[' :: ('b' :: 'u' :: 'g' :: 'm' :: 'o' :: 'n' :: ':' :: X) := by
    rw [markerL_eq]
    rfl
  rw [h, splitAtMarker_cons, ← h, isPre_self_append, h]
  simp

theorem splitAtMarker_append_of_none (T X : Str)
    (h : splitAtMarker T = none) :
    splitAtMarker (T ++ (markerL ++ X)) = some (T, X) := by
  induction T with
  | nil => simpa using splitAtMarker_self X
  | cons c T' ih =>
    obtain ⟨hp, hrec⟩ := splitAtMarker_none_cons h
    have ih' := ih hrec
    rw [List.cons_append, splitAtMarker_cons]
    have hfalse : markerL.isPrefixOf (c :: (T' ++ (markerL ++ X))) = false := by
      by_cases hlen : 8 ≤ (c :: T').length
      · have hstep : (c :: (T' ++ (markerL ++ X))) = (c :: T') ++ (markerL ++ X) := by
          simp
        rw [hstep, isPre_append markerL (c :: T') (markerL ++ X)
          (le_trans (le_of_eq (by rfl)) hlen)]
        exact hp
      · exact marker_no_overlap (c :: T') X (by simp) (by simp at hlen ⊢; omega)
    rw [hfalse]
    simp only [Bool.false_eq_true, if_false]
    rw [ih']

theorem splitAtMarker_decomp {w pre rest : Str}
    (h : splitAtMarker w = some (pre, rest)) : w = pre ++ (markerL ++ rest) := by
  induction w generalizing pre rest with
  | nil => simp [splitAtMarker] at h
  | cons c w' ih =>
    rw [splitAtMarker_cons] at h
    by_cases hp : markerL.isPrefixOf (c :: w') = true
    · rw [hp] at h
      simp only [if_true] at h
      have htake := take_of_isPre _ _ hp
      injection h with h1
      injection h1 with hpre hrest
      subst hpre; subst hrest
      conv_lhs => rw [← List.take_append_drop (markerL.length) (c :: w')]
      rw [htake]
      simp [markerL_eq]
    · have hp' : markerL.isPrefixOf (c :: w') = false := by
        revert hp; cases markerL.isPrefixOf (c :: w') <;> simp
      rw [hp'] at h
      simp only [Bool.false_eq_true, if_false] at h
      cases hs : splitAtMarker w' with
      | none => rw [hs] at h; simp at h
      | some p =>
        rw [hs] at h
        cases p with
        | mk pre' suf =>
          simp only at h
          injection h with h1
          injection h1 with hpre hrest
          subst hpre; subst hrest
          have hw := ih hs
          simp [hw]

theorem isPre_marker_indep (p X Y : Str) :
    markerL.isPrefixOf ((p ++ markerL) ++ X) =
      markerL.isPrefixOf ((p ++ markerL) ++ Y) := by
  rw [isPre_append markerL (p ++ markerL) X (by rw [List.length_append]; omega),
    isPre_append markerL (p ++ markerL) Y (by rw [List.length_append]; omega)]

theorem splitAtMarker_transfer {pre X : Str} (Y : Str)
    (h : splitAtMarker (pre ++ (markerL ++ X)) = some (pre, X)) :
    splitAtMarker (pre ++ (markerL ++ Y)) = some (pre, Y) := by
  induction pre generalizing X Y with
  | nil => simpa using splitAtMarker_self Y
  | cons c pre' ih =>
    rw [List.cons_append, splitAtMarker_cons] at h ⊢
    have hassocX : (c :: (pre' ++ (markerL ++ X))) = ((c :: pre') ++ markerL) ++ X := by
      simp
    have hassocY : (c :: (pre' ++ (markerL ++ Y))) = ((c :: pre') ++ markerL) ++ Y := by
      simp
    have hsame : markerL.isPrefixOf (c :: (pre' ++ (markerL ++ Y))) =
        markerL.isPrefixOf (c :: (pre' ++ (markerL ++ X))) := by
      rw [hassocX, hassocY]
      exact isPre_marker_indep (c :: pre') Y X
    by_cases hp : markerL.isPrefixOf (c :: (pre' ++ (markerL ++ X))) = true
    · rw [hp] at h
      simp at h
    · have hp' : markerL.isPrefixOf (c :: (pre' ++ (markerL ++ X))) = false := by
        revert hp; cases markerL.isPrefixOf (c :: (pre' ++ (markerL ++ X))) <;> simp
      rw [hp'] at h
      rw [hsame, hp']
      simp only [Bool.false_eq_true, if_false] at h ⊢
      cases hs : splitAtMarker (pre' ++ (markerL ++ X)) with
      | none => rw [hs] at h; simp at h
      | some p =>
        rw [hs] at h
        cases p with
        | mk pre'' suf =>
          simp only at h
          injection h with h1
          injection h1 with hpre hrest
          have hpre' : pre'' = pre' := by injection hpre
          subst hpre'; subst hrest
          have hres := ih Y hs
          rw [hres]

/-!
Serialization lemmas: splitting the comma-joined command tokens recovers
the tokens, and parsing the tokens recovers the command set.
-/

theorem contains_iff_mem {α : Type} [BEq α] [LawfulBEq α] (l : List α) (c : α) :
    l.contains c = true ↔ c ∈ l := by
  induction l with
  | nil => simp
  | cons a as ih => simp [List.contains_cons, ih]

theorem splitOnChar_sepFree {c : Char} {t : Str} (h : c ∉ t) :
    splitOnChar c t = [t] := by
  induction t with
  | nil => rfl
  | cons a t' ih =>
    have ha : a ≠ c := fun hac => h (hac ▸ List.mem_cons_self a t')
    have ht' : c ∉ t' := fun hc => h (List.mem_cons_of_mem a hc)
    simp only [splitOnChar, if_neg ha, ih ht']

theorem splitOnChar_sep_append {c : Char} {t : Str} (r : Str) (h : c ∉ t) :
    splitOnChar c (t ++ c :: r) = t :: splitOnChar c r := by
  induction t with
  | nil => simp [splitOnChar]
  | cons a t' ih =>
    have ha : a ≠ c := fun hac => h (hac ▸ List.mem_cons_self a t')
    have ht' : c ∉ t' := fun hc => h (List.mem_cons_of_mem a hc)
    simp only [List.cons_append, splitOnChar, if_neg ha, List.append_eq]
    rw [ih ht']

theorem splitOnChar_joinChar {c : Char} {ts : List Str} (hne : ts ≠ [])
    (h : ∀ t ∈ ts, c ∉ t) : splitOnChar c (joinChar c ts) = ts := by
  induction ts with
  | nil => exact absurd rfl hne
  | cons t ts' ih =>
    cases ts' with
    | nil => exact splitOnChar_sepFree (h t (List.mem_cons_self t []))
    | cons u us =>
      have hjoin : joinChar c (t :: u :: us) = t ++ c :: joinChar c (u :: us) := rfl
      rw [hjoin, splitOnChar_sep_append _ (h t (List.mem_cons_self t _)),
        ih (by simp) (fun x hx => h x (List.mem_cons_of_mem t hx))]

theorem mem_joinChar {c x : Char} {ts : List Str} (h : x ∈ joinChar c ts) :
    x = c ∨ ∃ t ∈ ts, x ∈ t := by
  induction ts with
  | nil => simp [joinChar] at h
  | cons t ts' ih =>
    cases ts' with
    | nil =>
      right
      exact ⟨t, List.mem_cons_self t [], h⟩
    | cons u us =>
      have hjoin : joinChar c (t :: u :: us) = t ++ c :: joinChar c (u :: us) := rfl
      rw [hjoin] at h
      rcases List.mem_append.mp h with h1 | h2
      · exact Or.inr ⟨t, List.mem_cons_self t _, h1⟩
      · rcases List.mem_cons.mp h2 with h3 | h4
        · exact Or.inl h3
        · rcases ih h4 with h5 | ⟨t', ht', hx⟩
          · exact Or.inl h5
          · exact Or.inr ⟨t', List.mem_cons_of_mem t ht', hx⟩

theorem not_mem_tokenOf {x : Char} {p : Str × Option Str} (hne : x ≠ '=')
    (hk : x ∉ p.1) (hv : ∀ v, p.2 = some v → x ∉ v) : x ∉ tokenOf p := by
  obtain ⟨k, v⟩ := p
  cases v with
  | none => exact hk
  | some s =>
    simp only [tokenOf]
    intro hmem
    rcases List.mem_append.mp hmem with h1 | h2
    · exact hk h1
    · rcases List.mem_cons.mp h2 with h3 | h4
      · exact hne h3
      · exact hv s rfl h4

theorem not_mem_joinParts {x : Char} {m : Cmds} (hc : x ≠ ',') (he : x ≠ '=')
    (h : ∀ p ∈ m, x ∉ p.1 ∧ ∀ v, p.2 = some v → x ∉ v) : x ∉ joinParts m := by
  intro hmem
  rcases mem_joinChar hmem with h1 | ⟨t, ht, hx⟩
  · exact hc h1
  · obtain ⟨p, hp, hpt⟩ := List.mem_map.mp ht
    subst hpt
    exact not_mem_tokenOf he (h p hp).1 (h p hp).2 hx

theorem splitOnChar_token {k v : Str} (hk : '=' ∉ k) (hv : '=' ∉ v) :
    splitOnChar '=' (k ++ '=' :: v) = [k, v] := by
  rw [splitOnChar_sep_append _ hk, splitOnChar_sepFree hv]

theorem dictInsert_fresh {m : Cmds} {k : Str} (v : Option Str)
    (h : k ∉ keysOf m) : dictInsert m k v = m ++ [(k, v)] := by
  have hmem : dictMember m k = false := by
    rw [← Bool.not_eq_true, dictMember, contains_iff_mem]
    exact h
  rw [dictInsert, hmem]
  simp

theorem parseToken_pair {acc : Cmds} {p : Str × Option Str}
    (hk : '=' ∉ p.1) (hv : ∀ v, p.2 = some v → '=' ∉ v) :
    parseToken acc (tokenOf p) = some (dictInsert acc p.1 p.2) := by
  obtain ⟨k, v⟩ := p
  cases v with
  | none =>
    simp only [tokenOf, parseToken]
    rw [if_neg]
    rw [contains_iff_mem]
    exact hk
  | some s =>
    have hvs : '=' ∉ s := hv s rfl
    have hcon : ((k ++ '=' :: s).contains '=') = true := by
      rw [contains_iff_mem]
      exact List.mem_append.mpr (Or.inr (List.mem_cons_self _ _))
    simp only [tokenOf, parseToken, hcon, if_true, splitOnChar_token hk hvs]

theorem parseTokens_go {m : Cmds} (acc : Cmds)
    (hgood : ∀ p ∈ m, '=' ∉ p.1 ∧ ∀ v, p.2 = some v → '=' ∉ v)
    (hnodup : (keysOf m).Nodup)
    (hdisj : ∀ k ∈ keysOf m, k ∉ keysOf acc) :
    List.foldlM parseToken acc (m.map tokenOf) = some (acc ++ m) := by
  induction m generalizing acc with
  | nil => simp
  | cons p m' ih =>
    obtain ⟨k, v⟩ := p
    have hkey : keysOf ((k, v) :: m') = k :: keysOf m' := by simp [keysOf]
    have h1 : (k :: keysOf m').Nodup := hkey ▸ hnodup
    have hk_not_in_m' : k ∉ keysOf m' := (List.nodup_cons.mp h1).1
    have hnodup' : (keysOf m').Nodup := (List.nodup_cons.mp h1).2
    have hkfresh : k ∉ keysOf acc := hdisj k (by rw [hkey]; exact List.mem_cons_self _ _)
    have hstep : parseToken acc (tokenOf (k, v)) = some (acc ++ [(k, v)]) := by
      rw [parseToken_pair (hgood (k, v) (List.mem_cons_self _ _)).1
        (hgood (k, v) (List.mem_cons_self _ _)).2]
      rw [dictInsert_fresh v hkfresh]
    have hrest : List.foldlM parseToken (acc ++ [(k, v)]) (m'.map tokenOf) =
        some ((acc ++ [(k, v)]) ++ m') := by
      refine ih (acc ++ [(k, v)])
        (fun q hq => hgood q (List.mem_cons_of_mem _ hq)) hnodup' ?_
      intro k' hk' hmem
      have hsplit : keysOf (acc ++ [(k, v)]) = keysOf acc ++ [k] := by simp [keysOf]
      rw [hsplit] at hmem
      rcases List.mem_append.mp hmem with ha | hb
      · exact hdisj k' (by rw [hkey]; exact List.mem_cons_of_mem _ hk') ha
      · have hkk : k' = k := by simpa using hb
        subst hkk
        exact hk_not_in_m' hk'
    rw [List.map_cons, List.foldlM_cons, hstep]
    simp only [Option.bind_eq_bind, Option.some_bind]
    rw [hrest]
    simp

theorem parseTokens_map {m : Cmds}
    (hgood : ∀ p ∈ m, '=' ∉ p.1 ∧ ∀ v, p.2 = some v → '=' ∉ v)
    (hnodup : (keysOf m).Nodup) :
    parseTokens (m.map tokenOf) = some m := by
  rw [parseTokens, parseTokens_go [] hgood hnodup
    (fun k _ h => by simp [keysOf] at h)]
  simp

/-!
Well-formed command sets and canonical whiteboards.  A command set is
nice when its keys are non-empty, its keys and values avoid the
characters that the codec treats specially, and its keys are distinct (a
Python dict guarantees distinctness).  A canonical whiteboard is the
empty string or a single well-formed bracketed region.
-/

theorem goodChar_spec {c : Char} (h : goodChar c = true) :
    c ≠ '=' ∧ c ≠ ',' ∧ c ≠ ']' ∧ c ≠ '\n' := by
  simp only [goodChar, Bool.and_eq_true, bne_iff_ne] at h
  exact ⟨h.1.1.1.1, h.1.1.1.2, h.1.1.2, h.2⟩

theorem nice_eq_free {m : Cmds} (h : NiceCmds m) :
    ∀ p ∈ m, '=' ∉ p.1 ∧ ∀ v, p.2 = some v → '=' ∉ v := by
  intro p hp
  obtain ⟨_, hkey, hval⟩ := h.1 p hp
  exact ⟨fun hmem => (goodChar_spec (hkey '=' hmem)).1 rfl,
    fun v hv hmem => (goodChar_spec (hval v hv '=' hmem)).1 rfl⟩

theorem nice_token_comma_free {m : Cmds} (h : NiceCmds m) :
    ∀ t ∈ m.map tokenOf, ',' ∉ t := by
  intro t ht
  obtain ⟨p, hp, hpt⟩ := List.mem_map.mp ht
  subst hpt
  obtain ⟨_, hkey, hval⟩ := h.1 p hp
  exact not_mem_tokenOf (by decide)
    (fun hmem => (goodChar_spec (hkey ',' hmem)).2.1 rfl)
    (fun v hv hmem => (goodChar_spec (hval v hv ',' hmem)).2.1 rfl)

theorem nice_joinParts_no_rbracket {m : Cmds} (h : NiceCmds m) :
    ']' ∉ joinParts m := by
  refine not_mem_joinParts (by decide) (by decide) ?_
  intro p hp
  obtain ⟨_, hkey, hval⟩ := h.1 p hp
  exact ⟨fun hmem => (goodChar_spec (hkey ']' hmem)).2.2.1 rfl,
    fun v hv hmem => (goodChar_spec (hval v hv ']' hmem)).2.2.1 rfl⟩

theorem tokenOf_ne_nil {p : Str × Option Str} (h : p.1 ≠ []) :
    tokenOf p ≠ [] := by
  obtain ⟨k, v⟩ := p
  cases v with
  | none => exact h
  | some s =>
    simp only [tokenOf]
    cases k with
    | nil => exact absurd rfl h
    | cons a k' => simp

theorem joinParts_cons_shape (k : Str) (v : Option Str) (m' : Cmds) :
    ∃ z, joinParts ((k, v) :: m') = k ++ z := by
  cases m' with
  | nil =>
    cases v with
    | none => exact ⟨[], by simp [joinParts, joinChar, tokenOf]⟩
    | some s => exact ⟨'=' :: s, by simp [joinParts, joinChar, tokenOf]⟩
  | cons q m'' =>
    have hshape : joinParts ((k, v) :: q :: m'') =
        tokenOf (k, v) ++ ',' :: joinChar ',' ((q :: m'').map tokenOf) := rfl
    cases v with
    | none => exact ⟨',' :: joinChar ',' ((q :: m'').map tokenOf), hshape⟩
    | some s =>
      refine ⟨'=' :: s ++ ',' :: joinChar ',' ((q :: m'').map tokenOf), ?_⟩
      rw [hshape]
      simp [tokenOf]

theorem joinParts_ne_nil {m : Cmds} (h : NiceCmds m) (hne : m ≠ []) :
    joinParts m ≠ [] := by
  cases m with
  | nil => exact absurd rfl hne
  | cons p m' =>
    obtain ⟨k, v⟩ := p
    obtain ⟨z, hz⟩ := joinParts_cons_shape k v m'
    rw [hz]
    have hk : k ≠ [] := (h.1 (k, v) (List.mem_cons_self _ _)).1
    cases k with
    | nil => exact absurd rfl hk
    | cons a k' => simp

theorem takeWhile_append_all {p : Char → Bool} {t : Str} (r : Str)
    (h : ∀ c ∈ t, p c = true) : (t ++ r).takeWhile p = t ++ r.takeWhile p := by
  induction t with
  | nil => simp
  | cons a t' ih =>
    have ha : p a = true := h a (List.mem_cons_self _ _)
    simp only [List.cons_append, List.takeWhile_cons, ha, if_true]
    rw [ih (fun c hc => h c (List.mem_cons_of_mem a hc))]

theorem dropWhile_append_all {p : Char → Bool} {t : Str} (r : Str)
    (h : ∀ c ∈ t, p c = true) : (t ++ r).dropWhile p = r.dropWhile p := by
  induction t with
  | nil => simp
  | cons a t' ih =>
    have ha : p a = true := h a (List.mem_cons_self _ _)
    simp only [List.cons_append, List.dropWhile_cons, ha, if_true]
    exact ih (fun c hc => h c (List.mem_cons_of_mem a hc))

theorem all_ne_rbracket {parts : Str} (h : ']' ∉ parts) :
    ∀ c ∈ parts, (c != ']') = true := by
  intro c hc
  have hne : c ≠ ']' := fun he => h (he ▸ hc)
  simpa using hne

theorem takeWhile_until_rbracket {parts : Str} (h : ']' ∉ parts) :
    (parts ++ [']']).takeWhile (fun c => c != ']') = parts := by
  rw [takeWhile_append_all [']'] (all_ne_rbracket h)]
  simp

theorem dropWhile_until_rbracket {parts : Str} (h : ']' ∉ parts) :
    (parts ++ [']']).dropWhile (fun c => c != ']') = [']'] := by
  rw [dropWhile_append_all [']'] (all_ne_rbracket h)]
  simp

theorem markerL_append_isEmpty (X : Str) : (markerL ++ X).isEmpty = false := by
  rw [markerL_eq]
  rfl

theorem markerL_append_length (X : Str) :
    (markerL ++ X).length = (7 + X.length) + 1 := by
  rw [List.length_append, show markerL.length = 8 from rfl]
  omega

theorem nice_parts_head {m : Cmds} (h : NiceCmds m) (hne : m ≠ []) :
    ∃ p0 ptail, joinParts m = p0 :: ptail ∧ p0 ≠ '\n' := by
  cases m with
  | nil => exact absurd rfl hne
  | cons p m' =>
    obtain ⟨k, v⟩ := p
    obtain ⟨z, hz⟩ := joinParts_cons_shape k v m'
    have hk : k ≠ [] := (h.1 (k, v) (List.mem_cons_self _ _)).1
    cases k with
    | nil => exact absurd rfl hk
    | cons c0 k' =>
      refine ⟨c0, k' ++ z, by simp [hz], ?_⟩
      have hgood := (h.1 ((c0 :: k'), v) (List.mem_cons_self _ _)).2.1 c0
        (List.mem_cons_self _ _)
      exact (goodChar_spec hgood).2.2.2

theorem searchDot_canonical {parts : Str} (fuel : Nat)
    {p0 : Char} {ptail : Str} (hshape : parts = p0 :: ptail) (hnl : p0 ≠ '\n')
    (hbr : ']' ∉ parts) :
    searchDotF (fuel + 1) (markerL ++ (parts ++ [']'])) = some parts := by
  subst hshape
  have hbrt : ']' ∉ ptail := fun hmem => hbr (List.mem_cons_of_mem p0 hmem)
  simp only [searchDotF, splitAtMarker_self, List.cons_append, if_neg hnl]
  rw [takeWhile_until_rbracket hbrt]

theorem parse_joinParts {m : Cmds} (h : NiceCmds m) (hne : m ≠ []) :
    parseTokens (splitOnChar ',' (joinParts m)) = some m := by
  have hmap : m.map tokenOf ≠ [] := by
    cases m with
    | nil => exact absurd rfl hne
    | cons p m' => simp
  rw [joinParts, splitOnChar_joinChar hmap (nice_token_comma_free h)]
  exact parseTokens_map (nice_eq_free h) h.2

theorem BugMonitor.commandsGet_canonical {m : Cmds} (h : NiceCmds m) :
    BugMonitor.commandsGet (canonical m) = some m := by
  cases hm : m with
  | nil => rfl
  | cons p m' =>
    have hne : m ≠ [] := by rw [hm]; simp
    rw [← hm]
    have hcan : canonical m = markerL ++ (joinParts m ++ [']']) := by
      rw [canonical, if_neg]
      rw [hm]
      simp
    obtain ⟨p0, ptail, hshape, hnl⟩ := nice_parts_head h hne
    have hbr : ']' ∉ joinParts m := nice_joinParts_no_rbracket h
    rw [hcan, BugMonitor.commandsGet, markerL_append_length]
    simp only [markerL_append_isEmpty, Bool.false_eq_true, if_false]
    rw [searchDot_canonical (7 + (joinParts m ++ [']']).length) hshape hnl hbr]
    exact parse_joinParts h hne

theorem subIntDot_noMarker (parts : Str) (fuel : Nat) {w : Str}
    (h : splitAtMarker w = none) : subIntDotF parts fuel w = w := by
  cases fuel with
  | zero => rfl
  | succ n => simp only [subIntDotF, h]

theorem subIntDot_canonical {parts parts' : Str} (fuel : Nat)
    {p0 : Char} {ptail : Str} (hshape : parts = p0 :: ptail) (hnl : p0 ≠ '\n')
    (hbr : ']' ∉ parts) :
    subIntDotF parts' (fuel + 1) (markerL ++ (parts ++ [']'])) =
      markerL ++ (parts' ++ [']']) := by
  subst hshape
  have hbrt : ']' ∉ ptail := fun hmem => hbr (List.mem_cons_of_mem p0 hmem)
  simp only [subIntDotF, splitAtMarker_self, List.cons_append, if_neg hnl]
  rw [dropWhile_until_rbracket hbrt,
    subIntDot_noMarker parts' fuel (by decide)]
  simp

theorem BugMonitor.commandsSet_canonical {m m' : Cmds} (hm : NiceCmds m)
    (hm' : NiceCmds m') (hne' : m' ≠ []) :
    BugMonitor.commandsSet m' (canonical m) = some (canonical m') := by
  have hparts' : joinParts m' ≠ [] := joinParts_ne_nil hm' hne'
  have hcan' : canonical m' = markerL ++ (joinParts m' ++ [']']) := by
    rw [canonical, if_neg]
    cases m' with
    | nil => exact absurd rfl hne'
    | cons q q' => simp
  cases hm0 : m with
  | nil =>
    rw [hcan', show canonical [] = [] from rfl, BugMonitor.commandsSet]
    have hp' : (joinParts m').isEmpty = false := by
      cases hj : joinParts m' with
      | nil => exact absurd hj hparts'
      | cons a b => rfl
    simp only [hp', Bool.not_false, if_true]
    rw [show searchDotF ([] : Str).length [] = none from rfl]
    simp
  | cons p0 m0 =>
    have hne : m ≠ [] := by rw [hm0]; simp
    rw [← hm0]
    have hcan : canonical m = markerL ++ (joinParts m ++ [']']) := by
      rw [canonical, if_neg]
      rw [hm0]
      simp
    obtain ⟨c0, ptail, hshape, hnl⟩ := nice_parts_head hm hne
    have hbr : ']' ∉ joinParts m := nice_joinParts_no_rbracket hm
    have hp' : (joinParts m').isEmpty = false := by
      cases hj : joinParts m' with
      | nil => exact absurd hj hparts'
      | cons a b => rfl
    rw [BugMonitor.commandsSet]
    simp only [hp', Bool.not_false, if_true]
    rw [hcan, markerL_append_length,
      searchDot_canonical (7 + (joinParts m ++ [']']).length) hshape hnl hbr]
    simp only [Option.isSome_some, if_true]
    rw [← hcan, BugMonitor.commandsGet_canonical hm]
    have hmne : m.isEmpty = false := by
      rw [hm0]
      rfl
    simp only [hmne, Bool.not_false, if_true]
    rw [hcan,
      subIntDot_canonical (7 + (joinParts m ++ [']']).length) hshape hnl hbr,
      hcan']

theorem keysOf_insert (m : Cmds) (k : Str) (v : Option Str) :
    keysOf (dictInsert m k v) =
      if dictMember m k then keysOf m else keysOf m ++ [k] := by
  by_cases h : dictMember m k = true
  · rw [dictInsert, if_pos h, if_pos h, keysOf, keysOf, List.map_map]
    refine List.map_congr_left ?_
    intro p _
    by_cases hp : p.1 = k
    · simp [hp]
    · simp [hp]
  · have h' : dictMember m k = false := by
      revert h; cases dictMember m k <;> simp
    rw [dictInsert, if_neg (by rw [h']; simp), if_neg (by rw [h']; simp), keysOf,
      keysOf, List.map_append]
    rfl

theorem dictInsert_ne_nil (m : Cmds) (k : Str) (v : Option Str) :
    dictInsert m k v ≠ [] := by
  rw [dictInsert]
  by_cases h : dictMember m k = true
  · rw [if_pos h]
    cases m with
    | nil => simp [dictMember, keysOf] at h
    | cons p m' => simp
  · have h' : dictMember m k = false := by
      revert h; cases dictMember m k <;> simp
    rw [if_neg (by rw [h']; simp)]
    simp

theorem NiceCmds_insert {m : Cmds} {k : Str} {v : Option Str}
    (hm : NiceCmds m) (hk : k ≠ []) (hkg : ∀ c ∈ k, goodChar c = true)
    (hv : ∀ v', v = some v' → ∀ c ∈ v', goodChar c = true) :
    NiceCmds (dictInsert m k v) := by
  constructor
  · intro p hp
    rw [dictInsert] at hp
    by_cases h : dictMember m k = true
    · rw [if_pos h] at hp
      obtain ⟨q, hq, hqp⟩ := List.mem_map.mp hp
      by_cases hqk : q.1 = k
      · rw [if_pos hqk] at hqp
        subst hqp
        exact ⟨hk, hkg, hv⟩
      · rw [if_neg hqk] at hqp
        subst hqp
        exact hm.1 q hq
    · have h' : dictMember m k = false := by
        revert h; cases dictMember m k <;> simp
      rw [if_neg (by rw [h']; simp)] at hp
      rcases List.mem_append.mp hp with h1 | h2
      · exact hm.1 p h1
      · have : p = (k, v) := by simpa using h2
        subst this
        exact ⟨hk, hkg, hv⟩
  · rw [keysOf_insert]
    by_cases h : dictMember m k = true
    · rw [if_pos h]
      exact hm.2
    · have h' : dictMember m k = false := by
        revert h; cases dictMember m k <;> simp
      rw [if_neg (by rw [h']; simp)]
      have hknot : k ∉ keysOf m := by
        intro hmem
        have hc := (contains_iff_mem (keysOf m) k).mpr hmem
        rw [dictMember, hc] at h'
        exact Bool.noConfusion h'
      simp only [List.nodup_append, List.nodup_cons, List.not_mem_nil,
        not_false_iff, List.nodup_nil, and_true, true_and]
      exact ⟨hm.2, by simpa [List.disjoint_singleton] using hknot⟩

theorem keys_remove_mem {m : Cmds} {k k' : Str} :
    k' ∈ keysOf (dictRemove m k) ↔ k' ∈ keysOf m ∧ k' ≠ k := by
  rw [dictRemove, keysOf, keysOf]
  constructor
  · intro h
    obtain ⟨p, hp, hpk⟩ := List.mem_map.mp h
    have hmem := List.mem_filter.mp hp
    refine ⟨List.mem_map.mpr ⟨p, hmem.1, hpk⟩, ?_⟩
    have := hmem.2
    simp only [ne_eq, decide_not, Bool.not_eq_true', decide_eq_false_iff_not] at this
    rw [← hpk]
    exact this
  · rintro ⟨h1, h2⟩
    obtain ⟨p, hp, hpk⟩ := List.mem_map.mp h1
    refine List.mem_map.mpr ⟨p, List.mem_filter.mpr ⟨hp, ?_⟩, hpk⟩
    simp only [ne_eq, decide_not, Bool.not_eq_true', decide_eq_false_iff_not]
    rw [hpk]
    exact h2

theorem NiceCmds_remove {m : Cmds} (k : Str) (hm : NiceCmds m) :
    NiceCmds (dictRemove m k) := by
  constructor
  · intro p hp
    exact hm.1 p (List.mem_filter.mp hp).1
  · have hsub : List.Sublist (keysOf (dictRemove m k)) (keysOf m) :=
      (List.filter_sublist m).map Prod.fst
    exact hm.2.sublist hsub

theorem dictMember_insert_self (m : Cmds) (k : Str) (v : Option Str) :
    dictMember (dictInsert m k v) k = true := by
  rw [dictMember, contains_iff_mem, keysOf_insert]
  by_cases h : dictMember m k = true
  · rw [if_pos h]
    rw [dictMember, contains_iff_mem] at h
    exact h
  · have h' : dictMember m k = false := by
      revert h; cases dictMember m k <;> simp
    rw [if_neg (by rw [h']; simp)]
    simp

theorem dictMember_insert_other {m : Cmds} {k k' : Str} (v : Option Str)
    (hne : k' ≠ k) : dictMember (dictInsert m k v) k' = dictMember m k' := by
  rw [dictMember, dictMember]
  by_cases h1 : k' ∈ keysOf (dictInsert m k v)
  · rw [(contains_iff_mem _ _).mpr h1]
    rw [keysOf_insert] at h1
    by_cases h : dictMember m k = true
    · rw [if_pos h] at h1
      rw [(contains_iff_mem _ _).mpr h1]
    · have h' : dictMember m k = false := by
        revert h; cases dictMember m k <;> simp
      rw [if_neg (by rw [h']; simp)] at h1
      rcases List.mem_append.mp h1 with ha | hb
      · rw [(contains_iff_mem _ _).mpr ha]
      · exact absurd (by simpa using hb) hne
  · have h2 : k' ∉ keysOf m := by
      intro hmem
      apply h1
      rw [keysOf_insert]
      by_cases h : dictMember m k = true
      · rw [if_pos h]
        exact hmem
      · have h' : dictMember m k = false := by
          revert h; cases dictMember m k <;> simp
        rw [if_neg (by rw [h']; simp)]
        exact List.mem_append.mpr (Or.inl hmem)
    have e1 : (keysOf (dictInsert m k v)).contains k' = false := by
      rw [← Bool.not_eq_true, contains_iff_mem]
      exact h1
    have e2 : (keysOf m).contains k' = false := by
      rw [← Bool.not_eq_true, contains_iff_mem]
      exact h2
    rw [e1, e2]

theorem dictMember_remove_self (m : Cmds) (k : Str) :
    dictMember (dictRemove m k) k = false := by
  rw [dictMember, ← Bool.not_eq_true, contains_iff_mem]
  intro hmem
  exact (keys_remove_mem.mp hmem).2 rfl

theorem dictMember_remove_other {m : Cmds} {k k' : Str} (hne : k' ≠ k) :
    dictMember (dictRemove m k) k' = dictMember m k' := by
  rw [dictMember, dictMember]
  by_cases h : k' ∈ keysOf m
  · rw [(contains_iff_mem _ _).mpr h,
      (contains_iff_mem _ _).mpr (keys_remove_mem.mpr ⟨h, hne⟩)]
  · have e1 : (keysOf (dictRemove m k)).contains k' = false := by
      rw [← Bool.not_eq_true, contains_iff_mem]
      intro hmem
      exact h (keys_remove_mem.mp hmem).1
    have e2 : (keysOf m).contains k' = false := by
      rw [← Bool.not_eq_true, contains_iff_mem]
      exact h
    rw [e1, e2]

theorem dictRemove_ne_nil_of_mem {m : Cmds} {k k' : Str}
    (hmem : k' ∈ keysOf m) (hne : k' ≠ k) : dictRemove m k ≠ [] := by
  intro hnil
  have : k' ∈ keysOf (dictRemove m k) := keys_remove_mem.mpr ⟨hmem, hne⟩
  rw [hnil] at this
  simp [keysOf] at this

theorem BugMonitor.addCommand_canonical {m : Cmds} {k : Str} {v : Option Str}
    (hm : NiceCmds m) (hk : k ≠ []) (hkg : ∀ c ∈ k, goodChar c = true)
    (hv : ∀ v', v = some v' → ∀ c ∈ v', goodChar c = true) :
    BugMonitor.addCommand (canonical m) k v =
      some (canonical (dictInsert m k v)) := by
  rw [BugMonitor.addCommand, BugMonitor.commandsGet_canonical hm]
  simp only [Option.bind_eq_bind, Option.some_bind]
  exact BugMonitor.commandsSet_canonical hm (NiceCmds_insert hm hk hkg hv)
    (dictInsert_ne_nil m k v)

theorem BugMonitor.removeCommand_canonical {m : Cmds} {k : Str}
    (hm : NiceCmds m) (hne : dictRemove m k ≠ []) :
    BugMonitor.removeCommand (canonical m) k =
      some (canonical (dictRemove m k)) := by
  rw [BugMonitor.removeCommand, BugMonitor.commandsGet_canonical hm]
  simp only [Option.bind_eq_bind, Option.some_bind]
  exact BugMonitor.commandsSet_canonical hm (NiceCmds_remove k hm) hne

/-!
Handler lemmas.  A monitor state is canonical when its whiteboard is the
canonical encoding of a nice command set whose origRev entry, when
present, carries a value (a bare origRev makes re.match raise on None in
initial_build_id, aborting the action).  Each action handler succeeds on
canonical states and keeps them canonical.
-/

theorem find?_insert {m : Cmds} {k k' : Str} {v : Option Str} (hne : k' ≠ k) :
    List.find? (fun p => decide (p.1 = k'))
        (m.map (fun p => if p.1 = k then (k, v) else p)) =
      List.find? (fun p => decide (p.1 = k')) m := by
  induction m with
  | nil => rfl
  | cons p m' ih =>
    by_cases hp : p.1 = k
    · have hf : (if p.1 = k then (k, v) else p) = (k, v) := if_pos hp
      rw [List.map_cons, hf, List.find?_cons, List.find?_cons]
      have d1 : (decide ((k, v).1 = k')) = false := by
        simp
        exact fun he => hne he.symm
      have d2 : (decide (p.1 = k')) = false := by
        simp [hp]
        exact fun he => hne he.symm
      rw [d1, d2, ih]
    · have hf : (if p.1 = k then (k, v) else p) = p := if_neg hp
      rw [List.map_cons, hf, List.find?_cons, List.find?_cons]
      cases hd : decide (p.1 = k') with
      | true => rfl
      | false => rw [ih]

theorem dictGet_insert_other {m : Cmds} {k k' : Str} (v : Option Str)
    (hne : k' ≠ k) : dictGet (dictInsert m k v) k' = dictGet m k' := by
  rw [dictGet, dictGet, dictInsert]
  by_cases h : dictMember m k = true
  · rw [if_pos h, find?_insert hne]
  · have h' : dictMember m k = false := by
      revert h; cases dictMember m k <;> simp
    rw [if_neg (by rw [h']; simp), List.find?_append]
    cases hf : m.find? (fun p => decide (p.1 = k')) with
    | some q => simp
    | none =>
      simp only [Option.none_or]
      have hlast : List.find? (fun p => decide (p.1 = k')) [(k, v)] = none := by
        rw [List.find?_cons]
        have : (decide ((k, v).1 = k')) = false := by
          simp
          exact fun he => hne he.symm
        rw [this]
        rfl
      rw [hlast]

theorem find?_remove {m : Cmds} {k k' : Str} (hne : k' ≠ k) :
    List.find? (fun p => decide (p.1 = k'))
        (m.filter (fun p => decide (p.1 ≠ k))) =
      List.find? (fun p => decide (p.1 = k')) m := by
  induction m with
  | nil => rfl
  | cons p m' ih =>
    by_cases hp : p.1 = k
    · have hfilter : List.filter (fun q => decide (q.1 ≠ k)) (p :: m') =
          List.filter (fun q => decide (q.1 ≠ k)) m' := by
        simp [List.filter_cons, hp]
      rw [hfilter, ih, List.find?_cons]
      have : (decide (p.1 = k')) = false := by
        simp [hp]
        exact fun he => hne he.symm
      rw [this]
    · have hfilter : List.filter (fun q => decide (q.1 ≠ k)) (p :: m') =
          p :: List.filter (fun q => decide (q.1 ≠ k)) m' := by
        simp [List.filter_cons, hp]
      rw [hfilter, List.find?_cons, List.find?_cons]
      cases hd : decide (p.1 = k') with
      | true => rfl
      | false => rw [ih]

theorem dictGet_remove_other {m : Cmds} {k k' : Str} (hne : k' ≠ k) :
    dictGet (dictRemove m k) k' = dictGet m k' := by
  rw [dictGet, dictGet, dictRemove, find?_remove hne]

theorem initialBuildId_fallback_some (s : MonState) :
    ∃ b, BugMonitor.initialBuildId.fallback s = some b := by
  rw [BugMonitor.initialBuildId.fallback]
  cases h : (splitOnChar ' ' s.commentZero).findSome? buildIdToken with
  | none => exact ⟨_, rfl⟩
  | some bid => exact ⟨bid, rfl⟩

theorem initialBuildId_canonical {s : MonState} {m : Cmds}
    (hwb : s.cur.whiteboard = canonical m) (hm : NiceCmds m)
    (hor : dictGet m (("origRev").toList) ≠ some none) :
    ∃ b, BugMonitor.initialBuildId s = some b := by
  rw [BugMonitor.initialBuildId, hwb, BugMonitor.commandsGet_canonical hm]
  simp only [Option.bind_eq_bind, Option.some_bind]
  cases hg : dictGet m (("origRev").toList) with
  | none => exact initialBuildId_fallback_some s
  | some v =>
    cases v with
    | none => exact absurd hg hor
    | some v' =>
      by_cases hrev : isRevLower v' = true
      · refine ⟨("origRev").toList, ?_⟩
        show (if isRevLower v' = true then (pure (("origRev").toList) : Option Str)
          else BugMonitor.initialBuildId.fallback s) = some (("origRev").toList)
        rw [if_pos hrev]
        rfl
      · obtain ⟨b, hb⟩ := initialBuildId_fallback_some s
        refine ⟨b, ?_⟩
        show (if isRevLower v' = true then (pure (("origRev").toList) : Option Str)
          else BugMonitor.initialBuildId.fallback s) = some b
        rw [if_neg hrev]
        exact hb

theorem dictRemove_not_mem {m : Cmds} {k : Str}
    (h : dictMember m k = false) : dictRemove m k = m := by
  rw [dictRemove, List.filter_eq_self]
  intro p hp
  simp only [ne_eq, decide_not, Bool.not_eq_true', decide_eq_false_iff_not]
  intro he
  rw [dictMember, ← Bool.not_eq_true, contains_iff_mem] at h
  exact h (he ▸ List.mem_map.mpr ⟨p, hp, rfl⟩)

theorem goodKey_bisected : ∀ c ∈ (("bisected").toList : Str), goodChar c = true := by
  decide

theorem goodKey_confirmed : ∀ c ∈ (("confirmed").toList : Str), goodChar c = true := by
  decide

theorem noneVal_good : ∀ v', (none : Option Str) = some v' →
    ∀ c ∈ v', goodChar c = true := by
  intro v' h
  exact Option.noConfusion h

theorem BugMonitor.bisectAct_canonical {env : ExtEnv} {s : MonState} {m : Cmds}
    (findFix : Bool) (hwb : s.cur.whiteboard = canonical m) (hm : NiceCmds m)
    (hor : dictGet m (("origRev").toList) ≠ some none) :
    ∃ t, BugMonitor.bisectAct env s findFix = some t ∧
      t.cur.whiteboard = canonical
        (dictRemove (dictInsert m (("bisected").toList) none) (("bisect").toList)) ∧
      t.bisectCalls = s.bisectCalls ++ [findFix] ∧
      t.evalCount = s.evalCount ∧ t.closeBug = s.closeBug ∧
      (∃ q, t.queue = s.queue ++ q) ∧ SameCore s t := by
  obtain ⟨b, hb⟩ := initialBuildId_canonical hwb hm hor
  have hm1 : NiceCmds (dictInsert m (("bisected").toList) none) :=
    NiceCmds_insert hm (by decide) goodKey_bisected noneVal_good
  have hadd : BugMonitor.addCommand (canonical m) (("bisected").toList) none =
      some (canonical (dictInsert m (("bisected").toList) none)) :=
    BugMonitor.addCommand_canonical hm (by decide) goodKey_bisected noneVal_good
  set m1 := dictInsert m (("bisected").toList) none with hm1def
  have hbised : (("bisected").toList : Str) ∈ keysOf m1 := by
    rw [← contains_iff_mem, ← dictMember]
    exact dictMember_insert_self m _ none
  rw [BugMonitor.bisectAct, hb]
  simp only [Option.bind_eq_bind, Option.some_bind]
  rw [show ({ s with bisectCalls := s.bisectCalls ++ [findFix] } : MonState).cur.whiteboard
    = canonical m from hwb]
  rw [hadd]
  simp only [Option.bind_eq_bind, Option.some_bind, putWhiteboard]
  rw [show ({ s with bisectCalls := s.bisectCalls ++ [findFix] } : MonState).cur
    = s.cur from rfl]
  rw [BugMonitor.commandsGet_canonical hm1]
  simp only [Option.bind_eq_bind, Option.some_bind]
  by_cases hmem : dictMember m1 (("bisect").toList) = true
  · rw [if_pos hmem]
    have hrem : BugMonitor.removeCommand (canonical m1) (("bisect").toList) =
        some (canonical (dictRemove m1 (("bisect").toList))) :=
      BugMonitor.removeCommand_canonical hm1
        (dictRemove_ne_nil_of_mem hbised (by decide))
    rw [hrem]
    simp only [Option.bind_eq_bind, Option.some_bind, pure]
    by_cases hrs : (env.bisectRes findFix).success = true
    · have hrs' : (!(env.bisectRes findFix).success) = false := by rw [hrs]; rfl
      rw [hrs']
      simp only [Bool.false_eq_true, if_false, BugMonitor.report]
      refine ⟨_, rfl, by simp, by simp, by simp, by simp, ⟨_, rfl⟩, ?_⟩
      refine ⟨by simp, by simp, by simp, by simp, by simp, by simp, by simp,
        by simp, by simp⟩
    · have hrs' : (!(env.bisectRes findFix).success) = true := by
        revert hrs; cases (env.bisectRes findFix).success <;> simp
      rw [hrs']
      simp only [if_true, BugMonitor.report]
      refine ⟨_, rfl, by simp, by simp, by simp, by simp, ⟨_, rfl⟩, ?_⟩
      refine ⟨by simp, by simp, by simp, by simp, by simp, by simp, by simp,
        by simp, by simp⟩
  · have hmem' : dictMember m1 (("bisect").toList) = false := by
      revert hmem; cases dictMember m1 (("bisect").toList) <;> simp
    rw [if_neg (by rw [hmem']; simp)]
    rw [dictRemove_not_mem hmem']
    simp only [Option.bind_eq_bind, Option.some_bind, pure]
    by_cases hrs : (env.bisectRes findFix).success = true
    · have hrs' : (!(env.bisectRes findFix).success) = false := by rw [hrs]; rfl
      rw [hrs']
      simp only [Bool.false_eq_true, if_false, BugMonitor.report]
      refine ⟨_, rfl, by simp, by simp, by simp, by simp, ⟨_, rfl⟩, ?_⟩
      refine ⟨by simp, by simp, by simp, by simp, by simp, by simp, by simp,
        by simp, by simp⟩
    · have hrs' : (!(env.bisectRes findFix).success) = true := by
        revert hrs; cases (env.bisectRes findFix).success <;> simp
      rw [hrs']
      simp only [if_true, BugMonitor.report]
      refine ⟨_, rfl, by simp, by simp, by simp, by simp, ⟨_, rfl⟩, ?_⟩
      refine ⟨by simp, by simp, by simp, by simp, by simp, by simp, by simp,
        by simp, by simp⟩

theorem CanonInv_step {m : Cmds} (k : Str) (v : Option Str)
    (hm : NiceCmds m) (hk : k ≠ []) (hkg : ∀ c ∈ k, goodChar c = true)
    (hv : ∀ v', v = some v' → ∀ c ∈ v', goodChar c = true)
    (hkne : (("origRev").toList : Str) ≠ k)
    (hor : dictGet m (("origRev").toList) ≠ some none) :
    NiceCmds (dictInsert m k v) ∧
      dictGet (dictInsert m k v) (("origRev").toList) ≠ some none :=
  ⟨NiceCmds_insert hm hk hkg hv, by rw [dictGet_insert_other v hkne]; exact hor⟩

theorem BugMonitor.confirmMark_canonical {s : MonState} {m : Cmds}
    (hwb : s.cur.whiteboard = canonical m) (hm : NiceCmds m) :
    ∃ t, BugMonitor.confirmMark s = some t ∧
      t.cur.whiteboard = canonical
        (dictRemove (dictInsert m (("confirmed").toList) none) (("confirm").toList)) ∧
      t.bisectCalls = s.bisectCalls ∧ t.evalCount = s.evalCount ∧
      t.closeBug = s.closeBug ∧ t.queue = s.queue ∧ SameCore s t := by
  have hm3 : NiceCmds (dictInsert m (("confirmed").toList) none) :=
    NiceCmds_insert hm (by decide) goodKey_confirmed noneVal_good
  have hcfd : (("confirmed").toList : Str) ∈
      keysOf (dictInsert m (("confirmed").toList) none) := by
    rw [← contains_iff_mem, ← dictMember]
    exact dictMember_insert_self m _ none
  rw [BugMonitor.confirmMark, hwb,
    BugMonitor.addCommand_canonical hm (by decide) goodKey_confirmed noneVal_good]
  simp only [Option.bind_eq_bind, Option.some_bind, putWhiteboard]
  rw [BugMonitor.commandsGet_canonical hm3]
  simp only [Option.bind_eq_bind, Option.some_bind]
  by_cases hmem : dictMember (dictInsert m (("confirmed").toList) none)
      (("confirm").toList) = true
  · rw [if_pos hmem,
      BugMonitor.removeCommand_canonical hm3
        (dictRemove_ne_nil_of_mem hcfd (by decide))]
    simp only [Option.bind_eq_bind, Option.some_bind, pure]
    exact ⟨_, rfl, rfl, rfl, rfl, rfl, rfl, rfl, rfl, rfl, rfl, rfl, rfl,
      rfl, rfl, rfl⟩
  · have hmem' : dictMember (dictInsert m (("confirmed").toList) none)
        (("confirm").toList) = false := by
      revert hmem
      cases dictMember (dictInsert m (("confirmed").toList) none)
        (("confirm").toList) <;> simp
    rw [if_neg (by rw [hmem']; simp), dictRemove_not_mem hmem']
    exact ⟨_, rfl, rfl, rfl, rfl, rfl, rfl, rfl, rfl, rfl, rfl, rfl, rfl,
      rfl, rfl, rfl⟩

theorem reproduceBug_fst (env : ExtEnv) (s : MonState) (branch : Str)
    (buildId : Option Str) :
    (BugMonitor.reproduceBug env s branch buildId).1 = s ∨
      (BugMonitor.reproduceBug env s branch buildId).1 =
        { s with evalCount := s.evalCount + 1 } := by
  cases buildId with
  | none =>
    rw [BugMonitor.reproduceBug.eq_def]
    simp only []
    cases hf : env.fetch branch (("latest").toList) false with
    | none => exact Or.inl rfl
    | some b =>
      simp only []
      cases env.evalTc b <;> exact Or.inr rfl
  | some bid =>
    rw [BugMonitor.reproduceBug.eq_def]
    simp only []
    cases hf : env.fetch branch bid true with
    | none => exact Or.inl rfl
    | some b =>
      simp only []
      cases env.evalTc b <;> exact Or.inr rfl

theorem reproduceBug_cur (env : ExtEnv) (s : MonState) (branch : Str)
    (buildId : Option Str) :
    (BugMonitor.reproduceBug env s branch buildId).1.cur = s.cur ∧
      (BugMonitor.reproduceBug env s branch buildId).1.queue = s.queue ∧
      (BugMonitor.reproduceBug env s branch buildId).1.closeBug = s.closeBug ∧
      (BugMonitor.reproduceBug env s branch buildId).1.bisectCalls = s.bisectCalls := by
  rcases reproduceBug_fst env s branch buildId with h | h <;> rw [h] <;>
    exact ⟨rfl, rfl, rfl, rfl⟩

theorem sweep_preserve (env : ExtEnv) (l : List (Str × Sum Str Int))
    (s : MonState) :
    (BugMonitor.sweepBranches env s l).cur.whiteboard = s.cur.whiteboard ∧
      (BugMonitor.sweepBranches env s l).cur.status = s.cur.status ∧
      (BugMonitor.sweepBranches env s l).queue = s.queue ∧
      (BugMonitor.sweepBranches env s l).closeBug = s.closeBug ∧
      (BugMonitor.sweepBranches env s l).bisectCalls = s.bisectCalls := by
  induction l generalizing s with
  | nil => exact ⟨rfl, rfl, rfl, rfl, rfl⟩
  | cons entry rest ih =>
    rw [BugMonitor.sweepBranches]
    by_cases hflag : getFlag s (flagNameOf entry) = ("fixed").toList
    · rw [if_pos hflag]
      simp only []
      obtain ⟨hc, hq, hcb, hbc⟩ := reproduceBug_cur env s entry.1 none
      by_cases hp : (BugMonitor.reproduceBug env s entry.1 none).2.status = RStatus.passed
      · rw [if_pos hp]
        obtain ⟨i1, i2, i3, i4, i5⟩ :=
          ih (setFlag (BugMonitor.reproduceBug env s entry.1 none).1
            (flagNameOf entry) (("verified").toList))
        rw [i1, i2, i3, i4, i5]
        exact ⟨by rw [show ∀ t f v, (setFlag t f v).cur.whiteboard = t.cur.whiteboard
            from fun _ _ _ => rfl, hc],
          by rw [show ∀ t f v, (setFlag t f v).cur.status = t.cur.status
            from fun _ _ _ => rfl, hc],
          by rw [show ∀ t f v, (setFlag t f v).queue = t.queue
            from fun _ _ _ => rfl, hq],
          by rw [show ∀ t f v, (setFlag t f v).closeBug = t.closeBug
            from fun _ _ _ => rfl, hcb],
          by rw [show ∀ t f v, (setFlag t f v).bisectCalls = t.bisectCalls
            from fun _ _ _ => rfl, hbc]⟩
      · rw [if_neg hp]
        by_cases hcr : (BugMonitor.reproduceBug env s entry.1 none).2.status = RStatus.crashed
        · rw [if_pos hcr]
          obtain ⟨i1, i2, i3, i4, i5⟩ :=
            ih (setFlag (BugMonitor.reproduceBug env s entry.1 none).1
              (flagNameOf entry) (("affected").toList))
          rw [i1, i2, i3, i4, i5]
          exact ⟨by rw [show ∀ t f v, (setFlag t f v).cur.whiteboard = t.cur.whiteboard
              from fun _ _ _ => rfl, hc],
            by rw [show ∀ t f v, (setFlag t f v).cur.status = t.cur.status
              from fun _ _ _ => rfl, hc],
            by rw [show ∀ t f v, (setFlag t f v).queue = t.queue
              from fun _ _ _ => rfl, hq],
            by rw [show ∀ t f v, (setFlag t f v).closeBug = t.closeBug
              from fun _ _ _ => rfl, hcb],
            by rw [show ∀ t f v, (setFlag t f v).bisectCalls = t.bisectCalls
              from fun _ _ _ => rfl, hbc]⟩
        · rw [if_neg hcr]
          obtain ⟨i1, i2, i3, i4, i5⟩ :=
            ih (BugMonitor.reproduceBug env s entry.1 none).1
          rw [i1, i2, i3, i4, i5]
          exact ⟨by rw [hc], by rw [hc], hq, hcb, hbc⟩
    · rw [if_neg hflag]
      exact ih s

theorem BugMonitor.verifyFixed_crashed {env : ExtEnv} {s : MonState}
    {baseline : ReproRes} (hb : baseline.status = RStatus.crashed) :
    ∃ t, BugMonitor.verifyFixed env s baseline = some t ∧
      t.cur.status = s.cur.status ∧
      t.cur.whiteboard = s.cur.whiteboard ∧
      t.bisectCalls = s.bisectCalls ∧
      t.queue = s.queue ++
        [("Bug is marked as FIXED but still reproduces on ").toList ++
          fmtOpt baseline.buildStr ++ (".").toList] := by
  rw [BugMonitor.verifyFixed, hb]
  rw [if_neg (fun h => RStatus.noConfusion h), if_pos rfl]
  simp only [Option.bind_eq_bind, Option.some_bind, BugMonitor.report]
  refine ⟨_, rfl, ?_, ?_, ?_, ?_⟩
  · obtain ⟨_, h2, _, _, _⟩ := sweep_preserve env (BugMonitor.branches env)
      { s with queue := s.queue ++
          [("Bug is marked as FIXED but still reproduces on ").toList ++
            fmtOpt baseline.buildStr ++ (".").toList] }
    rw [h2]
  · obtain ⟨h1, _, _, _, _⟩ := sweep_preserve env (BugMonitor.branches env)
      { s with queue := s.queue ++
          [("Bug is marked as FIXED but still reproduces on ").toList ++
            fmtOpt baseline.buildStr ++ (".").toList] }
    rw [h1]
  · obtain ⟨_, _, _, _, h5⟩ := sweep_preserve env (BugMonitor.branches env)
      { s with queue := s.queue ++
          [("Bug is marked as FIXED but still reproduces on ").toList ++
            fmtOpt baseline.buildStr ++ (".").toList] }
    rw [h5]
  · obtain ⟨_, _, h3, _, _⟩ := sweep_preserve env (BugMonitor.branches env)
      { s with queue := s.queue ++
          [("Bug is marked as FIXED but still reproduces on ").toList ++
            fmtOpt baseline.buildStr ++ (".").toList] }
    rw [h3]

theorem BugMonitor.confirmOpen_crashed_unconfirmed {env : ExtEnv}
    {s : MonState} {m : Cmds} {baseline : ReproRes}
    (hwb : s.cur.whiteboard = canonical m) (hm : NiceCmds m)
    (hor : dictGet m (("origRev").toList) ≠ some none)
    (hnc : dictMember m (("confirmed").toList) = false)
    (hb : baseline.status = RStatus.crashed) :
    ∃ t, BugMonitor.confirmOpen env s baseline = some t ∧
      t.bisectCalls = s.bisectCalls ++ [false] ∧
      t.cur.whiteboard = canonical
        (dictRemove
          (dictInsert
            (dictRemove (dictInsert m (("bisected").toList) none)
              (("bisect").toList))
            (("confirmed").toList) none)
          (("confirm").toList)) ∧
      NiceCmds
        (dictRemove
          (dictInsert
            (dictRemove (dictInsert m (("bisected").toList) none)
              (("bisect").toList))
            (("confirmed").toList) none)
          (("confirm").toList)) := by
  rw [BugMonitor.confirmOpen, hb, if_pos rfl, hwb,
    BugMonitor.commandsGet_canonical hm]
  simp only [Option.bind_eq_bind, Option.some_bind, hnc, Bool.not_false, if_true]
  have hm2 : NiceCmds
      (dictRemove (dictInsert m (("bisected").toList) none)
        (("bisect").toList)) :=
    NiceCmds_remove _ (NiceCmds_insert hm (by decide) goodKey_bisected noneVal_good)
  obtain ⟨t1, heq1, hwb1, hbc1, _, _, _, hcore1⟩ :=
    @BugMonitor.bisectAct_canonical env
      (BugMonitor.report s
        [("Verified bug as reproducible on ").toList ++
          fmtOpt baseline.buildStr ++ (".").toList])
      m false hwb hm hor
  rw [heq1]
  simp only [Option.bind_eq_bind, Option.some_bind]
  obtain ⟨t2, heq2, hwb2, hbc2, _, _, _, hcore2⟩ :=
    BugMonitor.confirmMark_canonical hwb1 hm2
  refine ⟨t2, heq2, ?_, hwb2, NiceCmds_remove _
    (NiceCmds_insert hm2 (by decide) goodKey_confirmed noneVal_good)⟩
  rw [hbc2, hbc1]
  rfl

theorem origRev_pres_ins {m : Cmds} {k : Str} (v : Option Str)
    (hne : (("origRev").toList : Str) ≠ k)
    (hor : dictGet m (("origRev").toList) ≠ some none) :
    dictGet (dictInsert m k v) (("origRev").toList) ≠ some none := by
  rw [dictGet_insert_other v hne]
  exact hor

theorem origRev_pres_rm {m : Cmds} {k : Str}
    (hne : (("origRev").toList : Str) ≠ k)
    (hor : dictGet m (("origRev").toList) ≠ some none) :
    dictGet (dictRemove m k) (("origRev").toList) ≠ some none := by
  rw [dictGet_remove_other hne]
  exact hor

theorem bisectCmds_inv {m : Cmds} (hm : NiceCmds m)
    (hor : dictGet m (("origRev").toList) ≠ some none) :
    NiceCmds (dictRemove (dictInsert m (("bisected").toList) none)
        (("bisect").toList)) ∧
      dictGet (dictRemove (dictInsert m (("bisected").toList) none)
        (("bisect").toList)) (("origRev").toList) ≠ some none :=
  ⟨NiceCmds_remove _ (NiceCmds_insert hm (by decide) goodKey_bisected noneVal_good),
    origRev_pres_rm (by decide) (origRev_pres_ins none (by decide) hor)⟩

theorem markCmds_inv {m : Cmds} (hm : NiceCmds m)
    (hor : dictGet m (("origRev").toList) ≠ some none) :
    NiceCmds (dictRemove (dictInsert m (("confirmed").toList) none)
        (("confirm").toList)) ∧
      dictGet (dictRemove (dictInsert m (("confirmed").toList) none)
        (("confirm").toList)) (("origRev").toList) ≠ some none :=
  ⟨NiceCmds_remove _ (NiceCmds_insert hm (by decide) goodKey_confirmed noneVal_good),
    origRev_pres_rm (by decide) (origRev_pres_ins none (by decide) hor)⟩

theorem BugMonitor.confirmMark_inv {s : MonState} {m : Cmds}
    (hwb : s.cur.whiteboard = canonical m) (hm : NiceCmds m)
    (hor : dictGet m (("origRev").toList) ≠ some none) :
    ∃ t, BugMonitor.confirmMark s = some t ∧ CanonInv t := by
  obtain ⟨t, heq, hwb', _⟩ := BugMonitor.confirmMark_canonical hwb hm
  exact ⟨t, heq, _, (markCmds_inv hm hor).1, hwb', (markCmds_inv hm hor).2⟩

theorem BugMonitor.bisectAct_inv {env : ExtEnv} {s : MonState} {m : Cmds}
    (findFix : Bool) (hwb : s.cur.whiteboard = canonical m) (hm : NiceCmds m)
    (hor : dictGet m (("origRev").toList) ≠ some none) :
    ∃ t, BugMonitor.bisectAct env s findFix = some t ∧ CanonInv t := by
  obtain ⟨t, heq, hwb', _⟩ := BugMonitor.bisectAct_canonical findFix hwb hm hor
  exact ⟨t, heq, _, (bisectCmds_inv hm hor).1, hwb', (bisectCmds_inv hm hor).2⟩

theorem BugMonitor.confirmOpen_inv {env : ExtEnv} {s : MonState}
    (baseline : ReproRes) (hinv : CanonInv s) :
    ∃ t, BugMonitor.confirmOpen env s baseline = some t ∧ CanonInv t := by
  obtain ⟨m, hm, hwb, hor⟩ := hinv
  cases hbs : baseline.status with
  | crashed =>
    rw [BugMonitor.confirmOpen, hbs, if_pos rfl, hwb,
      BugMonitor.commandsGet_canonical hm]
    simp only [Option.bind_eq_bind, Option.some_bind]
    by_cases hc : dictMember m (("confirmed").toList) = true
    · simp only [hc, Bool.not_true, Bool.false_eq_true, if_false]
      by_cases hhb : env.heartbeatDue = true
      · rw [if_pos hhb]
        simp only [Option.bind_eq_bind, Option.some_bind, pure]
        exact BugMonitor.confirmMark_inv
          (show (BugMonitor.report s _).cur.whiteboard = canonical m from hwb)
          hm hor
      · rw [if_neg hhb]
        simp only [Option.bind_eq_bind, Option.some_bind, pure]
        exact BugMonitor.confirmMark_inv hwb hm hor
    · have hc' : dictMember m (("confirmed").toList) = false := by
        revert hc; cases dictMember m (("confirmed").toList) <;> simp
      simp only [hc', Bool.not_false, if_true]
      obtain ⟨t1, heq1, m1, hm1, hwb1, hor1⟩ :=
        @BugMonitor.bisectAct_inv env
          (BugMonitor.report s
            [("Verified bug as reproducible on ").toList ++
              fmtOpt baseline.buildStr ++ (".").toList])
          m false hwb hm hor
      rw [heq1]
      simp only [Option.bind_eq_bind, Option.some_bind]
      exact BugMonitor.confirmMark_inv hwb1 hm1 hor1
  | passed =>
    rw [BugMonitor.confirmOpen, hbs,
      if_neg (fun h => RStatus.noConfusion h), if_pos rfl]
    obtain ⟨b, hbid⟩ := initialBuildId_canonical hwb hm hor
    rw [hbid]
    simp only [Option.bind_eq_bind, Option.some_bind]
    have hr1wb : (BugMonitor.reproduceBug env s
        (fmtOpt (BugMonitor.branch env s)) (some b)).1.cur.whiteboard =
        canonical m := by
      rw [(reproduceBug_cur env s _ _).1, hwb]
    by_cases hos : (BugMonitor.reproduceBug env s
        (fmtOpt (BugMonitor.branch env s)) (some b)).2.status = RStatus.crashed
    · rw [if_pos hos]
      obtain ⟨t1, heq1, m1, hm1, hwb1, hor1⟩ :=
        @BugMonitor.bisectAct_inv env
          (BugMonitor.reproduceBug env s
            (fmtOpt (BugMonitor.branch env s)) (some b)).1
          m true hr1wb hm hor
      rw [heq1]
      simp only [Option.bind_eq_bind, Option.some_bind]
      exact BugMonitor.confirmMark_inv
        (show ({ t1 with closeBug := true } : MonState).cur.whiteboard =
          canonical m1 from hwb1) hm1 hor1
    · rw [if_neg hos]
      simp only [Option.bind_eq_bind, Option.some_bind, pure]
      exact BugMonitor.confirmMark_inv
        (show ({ BugMonitor.report (BugMonitor.reproduceBug env s
            (fmtOpt (BugMonitor.branch env s)) (some b)).1 _ with
            closeBug := true } : MonState).cur.whiteboard = canonical m from
          hr1wb) hm hor
  | failed =>
    rw [BugMonitor.confirmOpen, hbs, if_neg (fun h => RStatus.noConfusion h),
      if_neg (fun h => RStatus.noConfusion h)]
    simp only [Option.bind_eq_bind, Option.some_bind, pure]
    exact BugMonitor.confirmMark_inv hwb hm hor
  | noBuild =>
    rw [BugMonitor.confirmOpen, hbs, if_neg (fun h => RStatus.noConfusion h),
      if_neg (fun h => RStatus.noConfusion h)]
    simp only [Option.bind_eq_bind, Option.some_bind, pure]
    exact BugMonitor.confirmMark_inv hwb hm hor

theorem BugMonitor.verifyFixed_inv {env : ExtEnv} {s : MonState}
    (baseline : ReproRes) (hinv : CanonInv s) :
    ∃ t, BugMonitor.verifyFixed env s baseline = some t ∧ CanonInv t := by
  obtain ⟨m, hm, hwb, hor⟩ := hinv
  cases hbs : baseline.status with
  | passed =>
    rw [BugMonitor.verifyFixed, hbs, if_pos rfl]
    obtain ⟨b, hbid⟩ := initialBuildId_canonical hwb hm hor
    rw [hbid]
    simp only [Option.bind_eq_bind, Option.some_bind]
    have hr1wb : (BugMonitor.reproduceBug env s
        (fmtOpt (BugMonitor.branch env s)) (some b)).1.cur.whiteboard =
        canonical m := by
      rw [(reproduceBug_cur env s _ _).1, hwb]
    by_cases hic : (BugMonitor.reproduceBug env s
        (fmtOpt (BugMonitor.branch env s)) (some b)).2.status ≠ RStatus.crashed
    · rw [if_pos hic]
      refine ⟨_, rfl, m, hm, ?_, hor⟩
      obtain ⟨h1, _, _, _, _⟩ := sweep_preserve env (BugMonitor.branches env) _
      rw [h1]
      exact hr1wb
    · rw [if_neg hic]
      refine ⟨_, rfl, m, hm, ?_, hor⟩
      obtain ⟨h1, _, _, _, _⟩ := sweep_preserve env (BugMonitor.branches env) _
      rw [h1]
      exact hr1wb
  | crashed =>
    rw [BugMonitor.verifyFixed, hbs,
      if_neg (fun h => RStatus.noConfusion h), if_pos rfl]
    simp only [Option.bind_eq_bind, Option.some_bind, pure]
    refine ⟨_, rfl, m, hm, ?_, hor⟩
    obtain ⟨h1, _, _, _, _⟩ := sweep_preserve env (BugMonitor.branches env) _
    rw [h1]
    exact hwb
  | failed =>
    rw [BugMonitor.verifyFixed, hbs,
      if_neg (fun h => RStatus.noConfusion h),
      if_neg (fun h => RStatus.noConfusion h)]
    simp only [Option.bind_eq_bind, Option.some_bind, pure]
    refine ⟨_, rfl, m, hm, ?_, hor⟩
    obtain ⟨h1, _, _, _, _⟩ := sweep_preserve env (BugMonitor.branches env) _
    rw [h1]
    exact hwb
  | noBuild =>
    rw [BugMonitor.verifyFixed, hbs,
      if_neg (fun h => RStatus.noConfusion h),
      if_neg (fun h => RStatus.noConfusion h)]
    simp only [Option.bind_eq_bind, Option.some_bind, pure]
    refine ⟨_, rfl, m, hm, ?_, hor⟩
    obtain ⟨h1, _, _, _, _⟩ := sweep_preserve env (BugMonitor.branches env) _
    rw [h1]
    exact hwb

theorem BugMonitor.runAction_inv {env : ExtEnv} {s : MonState}
    (baseline : ReproRes) (a : WfAction) (hinv : CanonInv s) :
    ∃ t, BugMonitor.runAction env baseline s a = some t ∧ CanonInv t := by
  obtain ⟨m, hm, hwb, hor⟩ := hinv
  cases a with
  | verifyF => exact BugMonitor.verifyFixed_inv baseline ⟨m, hm, hwb, hor⟩
  | confirmO => exact BugMonitor.confirmOpen_inv baseline ⟨m, hm, hwb, hor⟩
  | bisectA => exact BugMonitor.bisectAct_inv _ hwb hm hor

theorem BugMonitor.runActions_inv {env : ExtEnv} (baseline : ReproRes)
    (actions : List WfAction) :
    ∀ s : MonState, CanonInv s →
      ∃ t, List.foldlM (BugMonitor.runAction env baseline) s actions = some t ∧
        CanonInv t := by
  induction actions with
  | nil => exact fun s hinv => ⟨s, rfl, hinv⟩
  | cons a rest ih =>
    intro s hinv
    obtain ⟨t1, heq1, hinv1⟩ := BugMonitor.runAction_inv baseline a hinv
    obtain ⟨t2, heq2, hinv2⟩ := ih t1 hinv1
    refine ⟨t2, ?_, hinv2⟩
    rw [List.foldlM_cons, heq1]
    simpa using heq2

theorem reproduceBug_status_ok {env : ExtEnv} {br : Str} {bld : Build}
    (s : MonState) (hf : env.fetch br (("latest").toList) false = some bld)
    (he : env.evalTc bld = EvalStatus.crashed ∨
      env.evalTc bld = EvalStatus.passed) :
    (BugMonitor.reproduceBug env s br none).2.status = RStatus.crashed ∨
      (BugMonitor.reproduceBug env s br none).2.status = RStatus.passed := by
  rw [BugMonitor.reproduceBug.eq_def]
  simp only []
  rw [hf]
  simp only []
  rcases he with h | h <;> rw [h]
  · exact Or.inl rfl
  · exact Or.inr rfl

theorem BugMonitor.process_executes_all {env : ExtEnv} {s : MonState}
    {m : Cmds} {br : Str} {bld : Build}
    (hm : NiceCmds m) (hwb : s.cur.whiteboard = canonical m)
    (hor : dictGet m (("origRev").toList) ≠ some none)
    (hbr : BugMonitor.branch env s = some br)
    (hfetch : env.fetch br (("latest").toList) false = some bld)
    (heval : env.evalTc bld = EvalStatus.crashed ∨
      env.evalTc bld = EvalStatus.passed) :
    (BugMonitor.process env s).map Prod.snd =
      some (BugMonitor.selectActions m s.cur.status s.resolution) := by
  rw [BugMonitor.process, hbr]
  simp only [Option.bind_eq_bind]
  rw [hwb, BugMonitor.commandsGet_canonical hm]
  simp only [Option.some_bind]
  by_cases hact : (BugMonitor.selectActions m s.cur.status s.resolution).isEmpty = true
  · rw [if_pos hact]
    have : BugMonitor.selectActions m s.cur.status s.resolution = [] := by
      cases hsel : BugMonitor.selectActions m s.cur.status s.resolution with
      | nil => rfl
      | cons a rest => rw [hsel] at hact; exact Bool.noConfusion hact
    rw [this]
    rfl
  · rw [if_neg hact]
    have h1 := reproduceBug_status_ok s hfetch heval
    have hng1 : (BugMonitor.reproduceBug env s br none).2.status ≠ RStatus.noBuild := by
      rcases h1 with h | h <;> rw [h] <;> exact fun hc => RStatus.noConfusion hc
    have hnf1 : (BugMonitor.reproduceBug env s br none).2.status ≠ RStatus.failed := by
      rcases h1 with h | h <;> rw [h] <;> exact fun hc => RStatus.noConfusion hc
    rw [if_neg hng1, if_neg hnf1]
    have h2 := reproduceBug_status_ok
      (BugMonitor.reproduceBug env s br none).1 hfetch heval
    have hng2 : (BugMonitor.reproduceBug env
        (BugMonitor.reproduceBug env s br none).1 br none).2.status ≠
        RStatus.noBuild := by
      rcases h2 with h | h <;> rw [h] <;> exact fun hc => RStatus.noConfusion hc
    have hnf2 : (BugMonitor.reproduceBug env
        (BugMonitor.reproduceBug env s br none).1 br none).2.status ≠
        RStatus.failed := by
      rcases h2 with h | h <;> rw [h] <;> exact fun hc => RStatus.noConfusion hc
    rw [if_neg hng2, if_neg hnf2]
    have hinv2 : CanonInv (BugMonitor.reproduceBug env
        (BugMonitor.reproduceBug env s br none).1 br none).1 := by
      refine ⟨m, hm, ?_, hor⟩
      rw [(reproduceBug_cur env _ _ _).1, (reproduceBug_cur env _ _ _).1, hwb]
    obtain ⟨t, heq, _⟩ := BugMonitor.runActions_inv
      (BugMonitor.reproduceBug env
        (BugMonitor.reproduceBug env s br none).1 br none).2
      (BugMonitor.selectActions m s.cur.status s.resolution) _ hinv2
    rw [heq]
    simp only [Option.bind_eq_bind, Option.some_bind]
    rfl

/-!
EnhancedBug codec on arbitrary whiteboard texts.
-/

theorem subIntF_noMarker (parts : Str) (fuel : Nat) {w : Str}
    (h : splitAtMarker w = none) : subIntF parts fuel w = w := by
  cases fuel with
  | zero => rfl
  | succ n => simp only [subIntF, h]

theorem removeF_noMarker (fuel : Nat) {w : Str}
    (h : splitAtMarker w = none) : removeF fuel w = w := by
  cases fuel with
  | zero => rfl
  | succ n => simp only [removeF, h]

theorem searchPlus_step {w pre rest : Str} (fuel : Nat)
    (h : splitAtMarker w = some (pre, rest))
    (hrun : rest.takeWhile (fun c => c != ']') ≠ []) :
    searchPlusF (fuel + 1) w = some (rest.takeWhile (fun c => c != ']')) := by
  have hrunE : (rest.takeWhile (fun c => c != ']')).isEmpty = false := by
    cases hc : rest.takeWhile (fun c => c != ']') with
    | nil => exact absurd hc hrun
    | cons a l => rfl
  simp only [searchPlusF, h, hrunE, Bool.false_eq_true, if_false]

theorem length_pos_of_marker {w pre rest : Str}
    (h : splitAtMarker w = some (pre, rest)) : ∃ n, w.length = n + 1 := by
  have hd := splitAtMarker_decomp h
  refine ⟨pre.length + 7 + rest.length, ?_⟩
  rw [hd, List.length_append, List.length_append,
    show markerL.length = 8 from rfl]
  omega

theorem dropWhile_rbracket_shape (l : Str) :
    l.dropWhile (fun c => c != ']') = [] ∨
      ∃ l', l.dropWhile (fun c => c != ']') = ']' :: l' := by
  induction l with
  | nil => exact Or.inl rfl
  | cons a l' ih =>
    by_cases ha : a = ']'
    · subst ha
      exact Or.inr ⟨l', by simp [List.dropWhile_cons]⟩
    · have ha' : (a != ']') = true := by simpa using ha
      rw [List.dropWhile_cons, ha']
      simpa using ih

theorem takeWhile_parts_tail {parts : Str} (l : Str) (hbr : ']' ∉ parts) :
    (parts ++ l.dropWhile (fun c => c != ']')).takeWhile (fun c => c != ']') =
      parts := by
  rw [takeWhile_append_all _ (all_ne_rbracket hbr)]
  rcases dropWhile_rbracket_shape l with h | ⟨l', h⟩
  · rw [h]
    simp
  · rw [h]
    simp [List.takeWhile_cons]

theorem decodeB_of_region {w pre tail : Str} {cmds : Cmds}
    (hnice : NiceCmds cmds) (hne : cmds ≠ [])
    (hsp : splitAtMarker w = some (pre, joinParts cmds ++ tail))
    (htail : tail = [] ∨ ∃ t', tail = ']' :: t') :
    EnhancedBug.commandsGet w = some cmds := by
  have hbr := nice_joinParts_no_rbracket hnice
  have hrun : (joinParts cmds ++ tail).takeWhile (fun c => c != ']') =
      joinParts cmds := by
    rw [takeWhile_append_all _ (all_ne_rbracket hbr)]
    rcases htail with h | ⟨t', h⟩
    · rw [h]
      simp
    · rw [h]
      simp [List.takeWhile_cons]
  have hwne : w.isEmpty = false := by
    obtain ⟨n, hn⟩ := length_pos_of_marker hsp
    cases hw : w with
    | nil => rw [hw] at hn; simp at hn
    | cons a l => rfl
  obtain ⟨n, hn⟩ := length_pos_of_marker hsp
  rw [EnhancedBug.commandsGet, hwne]
  simp only [Bool.false_eq_true, if_false]
  rw [hn, searchPlus_step n hsp
    (by rw [hrun]; exact joinParts_ne_nil hnice hne), hrun]
  exact parse_joinParts hnice hne

theorem splitAtMarker_none_of_not {w : Str} (h : containsMarker w = false) :
    splitAtMarker w = none := by
  rw [containsMarker] at h
  cases hq : splitAtMarker w with
  | none => rfl
  | some p => rw [hq] at h; exact Bool.noConfusion h

theorem encodeB_roundTrip {cmds : Cmds} {T : Str} (hne : cmds ≠ [])
    (hnice : NiceCmds cmds) (hT : noSecondRegion T = true) :
    EnhancedBug.commandsGet (EnhancedBug.commandsSet cmds T) = some cmds ∧
      (splitAtMarker T = none →
        EnhancedBug.commandsSet cmds T =
          T ++ markerL ++ joinParts cmds ++ [']']) ∧
      (∀ pre rest, splitAtMarker T = some (pre, rest) →
        EnhancedBug.commandsSet cmds T =
          pre ++ markerL ++ joinParts cmds ++
            rest.dropWhile (fun c => c != ']')) := by
  have hpartsE : (joinParts cmds).isEmpty = false := by
    cases hj : joinParts cmds with
    | nil => exact absurd hj (joinParts_ne_nil hnice hne)
    | cons a l => rfl
  cases hsp : splitAtMarker T with
  | none =>
    have hcm : containsMarker T = false := by rw [containsMarker, hsp]; rfl
    have hshape : EnhancedBug.commandsSet cmds T =
        T ++ markerL ++ joinParts cmds ++ [']'] := by
      rw [EnhancedBug.commandsSet]
      simp only [hpartsE, Bool.false_eq_true, if_false, hcm]
    refine ⟨?_, fun _ => hshape, fun pre rest h => Option.noConfusion h⟩
    rw [hshape]
    have hspA : splitAtMarker (T ++ markerL ++ joinParts cmds ++ [']']) =
        some (T, joinParts cmds ++ [']']) := by
      rw [show T ++ markerL ++ joinParts cmds ++ [']'] =
        T ++ (markerL ++ (joinParts cmds ++ [']'])) from by simp]
      exact splitAtMarker_append_of_none _ _ hsp
    exact decodeB_of_region hnice hne hspA (Or.inr ⟨[], rfl⟩)
  | some p =>
    obtain ⟨pre, rest⟩ := p
    have hT' : containsMarker (rest.dropWhile (fun c => c != ']')) = false := by
      rw [noSecondRegion, hsp] at hT
      simpa using hT
    have hcm : containsMarker T = true := by rw [containsMarker, hsp]; rfl
    obtain ⟨n, hn⟩ := length_pos_of_marker hsp
    have hshape : EnhancedBug.commandsSet cmds T =
        pre ++ markerL ++ joinParts cmds ++
          rest.dropWhile (fun c => c != ']') := by
      rw [EnhancedBug.commandsSet]
      simp only [hpartsE, Bool.false_eq_true, if_false, hcm, if_true, hn,
        subIntF, hsp]
      rw [subIntF_noMarker _ n (splitAtMarker_none_of_not hT')]
    have hdec := splitAtMarker_decomp hsp
    have hsp' : splitAtMarker (pre ++ (markerL ++ rest)) = some (pre, rest) := by
      rw [← hdec]
      exact hsp
    have htrans := splitAtMarker_transfer
      (joinParts cmds ++ rest.dropWhile (fun c => c != ']')) hsp'
    refine ⟨?_, fun h => Option.noConfusion h, fun pre' rest' h => ?_⟩
    · rw [hshape]
      have hspB : splitAtMarker (pre ++ markerL ++ joinParts cmds ++
          rest.dropWhile (fun c => c != ']')) =
          some (pre, joinParts cmds ++ rest.dropWhile (fun c => c != ']')) := by
        rw [show pre ++ markerL ++ joinParts cmds ++
            rest.dropWhile (fun c => c != ']') =
          pre ++ (markerL ++ (joinParts cmds ++
            rest.dropWhile (fun c => c != ']'))) from by simp]
        exact htrans
      exact decodeB_of_region hnice hne hspB (dropWhile_rbracket_shape rest)
    · injection h with h1
      injection h1 with hpre hrest
      subst hpre
      subst hrest
      exact hshape

theorem removeB_region {T pre mid post : Str}
    (hsp : splitAtMarker T = some (pre, mid ++ ']' :: post))
    (hmid : ∀ c ∈ mid, c ≠ ']' ∧ c ≠ '\n')
    (hpost : containsMarker post = false) :
    EnhancedBug.commandsSet [] T = pre ++ post := by
  obtain ⟨n, hn⟩ := length_pos_of_marker hsp
  rw [EnhancedBug.commandsSet]
  simp only [joinParts, joinChar, List.map_nil, List.isEmpty_nil, if_true, hn,
    removeF, hsp]
  have hdrop : (mid ++ ']' :: post).dropWhile
      (fun c => c != ']' && c != '\n') = ']' :: post := by
    rw [dropWhile_append_all _ (fun c hc => by
      obtain ⟨h1, h2⟩ := hmid c hc
      simp [h1, h2])]
    simp [List.dropWhile_cons]
  rw [hdrop]
  simp only []
  rw [removeF_noMarker n (splitAtMarker_none_of_not hpost)]

/-- Claim C7: for every first-comment text, environment-variable
extraction terminates and returns a mapping without raising; in
particular it never throws for comments containing tokens with more than
one equals sign.  The code violates this: a token matching the
env-variable pattern but containing two or more equals signs makes the
two-element tuple unpacking raise ValueError (modelled as none), while a
well-formed token still succeeds. -/
theorem claim_C7_env_extraction_raises :
    EnhancedBug.env (("a=b=c").toList) = none ∧
      EnhancedBug.env (("ASAN_OPTIONS=detect_leaks=1 crash").toList) = none ∧
      EnhancedBug.env (("run with ASAN=1").toList) =
        some [(("ASAN").toList, ("1").toList)] := by
  decide

/-- Claim C8: for every bug record state, the field-level diff produced
for an outgoing tracker update never contains the attachments or comments
keys — EnhancedBug.diff pops both keys from the bugsy diff regardless of
the changed-field set. -/
theorem claim_C8_diff_never_attachments (changed : List (Str × Str)) :
    ((("attachments").toList : Str) ∉ (EnhancedBug.diff changed).map Prod.fst) ∧
      ((("comments").toList : Str) ∉ (EnhancedBug.diff changed).map Prod.fst) := by
  constructor
  · intro hmem
    obtain ⟨p, hp, hpk⟩ := List.mem_map.mp hmem
    have h2 := (List.mem_filter.mp hp).2
    rw [hpk] at h2
    simp at h2
    have h1 := (List.mem_filter.mp (List.mem_filter.mp hp).1).2
    rw [hpk] at h1
    simp at h1
  · intro hmem
    obtain ⟨p, hp, hpk⟩ := List.mem_map.mp hmem
    have h2 := (List.mem_filter.mp hp).2
    rw [hpk] at h2
    simp at h2

/-- Claim C10: for every bug whose recorded version field is not an
integer (any string), the derived version equals the current central
version, and branch resolution selects the central alias first regardless
of the ESR table suffix. -/
theorem claim_C10_version_fallback (central : Int) (esr : List (Str × Int))
    (vs : Str) :
    EnhancedBug.version central (VField.strV vs) = central ∧
      EnhancedBug.branch central esr (VField.strV vs) =
        some (("central").toList) := by
  refine ⟨rfl, ?_⟩
  rw [EnhancedBug.branch, EnhancedBug.branches]
  simp [EnhancedBug.version, List.find?]

/-- Claim C2 (amended): the claim as stated fails because a value
containing a closing bracket ends the bracketed region early.  Amended:
for every non-empty CommandSet with non-empty keys whose keys and values
avoid the separator characters, the closing bracket, the backslash (which
re.sub would treat as a replacement escape) and the newline, and every
whiteboard text with at most one bugmon region, the EnhancedBug codec
round-trips, appending a fresh region when none exists and replacing only
the region interior when one does, so all surrounding text is preserved
verbatim. -/
theorem claim_C2_roundTrip_amended {cmds : Cmds} {T : Str} (hne : cmds ≠ [])
    (hnice : NiceCmds cmds) (hT : noSecondRegion T = true) :
    EnhancedBug.commandsGet (EnhancedBug.commandsSet cmds T) = some cmds ∧
      (splitAtMarker T = none →
        EnhancedBug.commandsSet cmds T =
          T ++ markerL ++ joinParts cmds ++ [']']) ∧
      (∀ pre rest, splitAtMarker T = some (pre, rest) →
        EnhancedBug.commandsSet cmds T =
          pre ++ markerL ++ joinParts cmds ++
            rest.dropWhile (fun c => c != ']')) :=
  encodeB_roundTrip hne hnice hT

/-- Witness for claim C2 on a concrete command set and whiteboard. -/
theorem claim_C2_witness :
    EnhancedBug.commandsGet
        (EnhancedBug.commandsSet
          [((("k").toList : Str), some (("v").toList))]
          (("foo [bugmon:old]bar").toList)) =
      some [((("k").toList : Str), some (("v").toList))] :=
  (claim_C2_roundTrip_amended (by decide) (by decide) (by decide)).1

/-- Counterexample for claim C2 as stated: the value a]b contains neither
an equals sign nor a comma, yet the round trip truncates it at the
closing bracket. -/
theorem claim_C2_counterexample :
    EnhancedBug.commandsGet
        (EnhancedBug.commandsSet
          [((("k").toList : Str), some (("a]b").toList))] []) =
      some [((("k").toList : Str), some (("a").toList))] ∧
      some [((("k").toList : Str), some (("a").toList))] ≠
        some [((("k").toList : Str), some (("a]b").toList))] := by
  decide

/-- Claim C3 (amended): the EnhancedBug codec removes the bracketed
region and its marker entirely when encoding an empty CommandSet, leaving
all text before and after untouched; the BugMonitor codec, however, only
clears the interior and leaves an empty bracketed marker behind (see the
counterexample). -/
theorem claim_C3_empty_removes_region {T pre mid post : Str}
    (hsp : splitAtMarker T = some (pre, mid ++ ']' :: post))
    (hmid : ∀ c ∈ mid, c ≠ ']' ∧ c ≠ '\n')
    (hpost : containsMarker post = false) :
    EnhancedBug.commandsSet [] T = pre ++ post :=
  removeB_region hsp hmid hpost

/-- Witness for claim C3 on the input named by the specification. -/
theorem claim_C3_witness :
    EnhancedBug.commandsSet [] (("foo [bugmon:bisect]bar").toList) =
      ("foo ").toList ++ ("bar").toList :=
  @claim_C3_empty_removes_region (("foo [bugmon:bisect]bar").toList)
    (("foo ").toList) (("bisect").toList) (("bar").toList)
    (by decide) (by decide) (by decide)

/-- Counterexample for claim C3 as stated about the whole code base: the
BugMonitor commands setter leaves the empty marker in place instead of
removing the region. -/
theorem claim_C3_counterexample :
    BugMonitor.commandsSet [] (("foo [bugmon:bisect]bar").toList) =
      some (("foo [bugmon:]bar").toList) ∧
      some (("foo [bugmon:]bar").toList) ≠ some (("foo bar").toList) := by
  decide

theorem reproduceBug_fst_some {env : ExtEnv} {branch : Str} {bld : Build}
    (s : MonState) (hf : env.fetch branch (("latest").toList) false = some bld) :
    (BugMonitor.reproduceBug env s branch none).1 =
      { s with evalCount := s.evalCount + 1 } := by
  rw [BugMonitor.reproduceBug.eq_def]
  simp only []
  rw [hf]
  simp only []
  cases env.evalTc bld <;> rfl

theorem reproduceBug_snd_fixed {env : ExtEnv} {branch : Str} {bld : Build}
    (s : MonState) (hf : env.fetch branch (("latest").toList) false = some bld) :
    (BugMonitor.reproduceBug env { s with evalCount := s.evalCount + 1 }
        branch none).2 =
      (BugMonitor.reproduceBug env s branch none).2 := by
  rw [BugMonitor.reproduceBug.eq_def, BugMonitor.reproduceBug.eq_def]
  simp only []
  rw [hf]
  simp only []
  cases env.evalTc bld <;> rfl

/-- Claim C6 (amended): the claim as stated fails because reproduce_bug
has no memoization — each call fetches and evaluates anew.  Amended: two
reproduce calls for the same branch with the latest build identifier do
resolve to the same concrete build and produce the same reproduction
result, but the evaluator is invoked once per call, so after two calls
the evaluation count has grown by exactly two, not one. -/
theorem claim_C6_no_memoization {env : ExtEnv} {s : MonState} {branch : Str}
    {bld : Build}
    (hf : env.fetch branch (("latest").toList) false = some bld) :
    ((BugMonitor.reproduceBug env
        (BugMonitor.reproduceBug env s branch none).1 branch none).1).evalCount =
      s.evalCount + 2 ∧
      (BugMonitor.reproduceBug env
          (BugMonitor.reproduceBug env s branch none).1 branch none).2 =
        (BugMonitor.reproduceBug env s branch none).2 := by
  rw [reproduceBug_fst_some s hf]
  constructor
  · rw [reproduceBug_fst_some { s with evalCount := s.evalCount + 1 } hf]
  · exact reproduceBug_snd_fixed s hf

/-- Witness for claim C6 on the concrete fixture. -/
theorem claim_C6_witness :
    ((BugMonitor.reproduceBug envA
        (BugMonitor.reproduceBug envA stateA (("central").toList) none).1
        (("central").toList) none).1).evalCount = stateA.evalCount + 2 :=
  (claim_C6_no_memoization rfl).1

/-- Counterexample for claim C6 as stated: within one run, two latest
reproductions on the same branch invoke the evaluator twice, not once. -/
theorem claim_C6_counterexample :
    ((BugMonitor.reproduceBug envA
        (BugMonitor.reproduceBug envA stateA (("central").toList) none).1
        (("central").toList) none).1).evalCount = 2 ∧ (2 : Nat) ≠ 1 := by
  constructor
  · decide
  · decide

theorem diffOf_dryRun (t : MonState) (b : Bool) :
    diffOf { t with dryRun := b } = diffOf t := rfl

theorem updateCommit_dry (t : MonState) :
    (BugMonitor.updateCommit { t with dryRun := true }).2.loggedDiff =
      (BugMonitor.updateCommit { t with dryRun := false }).2.loggedDiff ∧
    (BugMonitor.updateCommit { t with dryRun := true }).2.putCalled = false ∧
    (BugMonitor.updateCommit { t with dryRun := true }).2.commentPosted = none ∧
    (BugMonitor.updateCommit { t with dryRun := true }).1.cur =
      (BugMonitor.updateCommit { t with dryRun := false }).1.cur ∧
    (BugMonitor.updateCommit { t with dryRun := false }).1.queue = [] ∧
    (BugMonitor.updateCommit { t with dryRun := true }).1.queue = t.queue := by
  cases hD : (diffOf t).isEmpty <;>
    simp only [BugMonitor.updateCommit, diffOf_dryRun, hD] <;>
    simp

/-- Claim C9 (amended): the claim as stated fails because the finding
queue is cleared only outside dry-run mode.  Amended: the commit step in
dry-run mode computes and logs exactly the same field diff as the normal
mode, performs no external write (no tracker put, no posted comment) and
leaves the in-memory bug fields identical to the normal mode, but the
queue is left in place (extended by the closure note when applicable)
whereas the normal mode empties it. -/
theorem claim_C9_dry_run_queue (s : MonState) :
    (BugMonitor.update { s with dryRun := true }).2.loggedDiff =
      (BugMonitor.update { s with dryRun := false }).2.loggedDiff ∧
    (BugMonitor.update { s with dryRun := true }).2.putCalled = false ∧
    (BugMonitor.update { s with dryRun := true }).2.commentPosted = none ∧
    (BugMonitor.update { s with dryRun := true }).1.cur =
      (BugMonitor.update { s with dryRun := false }).1.cur ∧
    (BugMonitor.update { s with dryRun := false }).1.queue = [] ∧
    (BugMonitor.update { s with dryRun := true }).1.queue =
      (if s.closeBug && s.cur.keywords.contains (("bugmon").toList) then
        s.queue ++
          [("Removing bugmon keyword as no further action possible.").toList,
           ("Please review the bug and re-add the keyword for further analysis.").toList]
      else s.queue) := by
  by_cases hclose : (s.closeBug && s.cur.keywords.contains (("bugmon").toList)) = true
  · have h := updateCommit_dry { s with
      cur := { s.cur with keywords := s.cur.keywords.erase (("bugmon").toList) },
      queue := s.queue ++
        [("Removing bugmon keyword as no further action possible.").toList,
         ("Please review the bug and re-add the keyword for further analysis.").toList] }
    simp only [BugMonitor.update, BugMonitor.report]
    simp only [show ({ s with dryRun := true } : MonState).closeBug = s.closeBug
      from rfl,
      show ({ s with dryRun := false } : MonState).closeBug = s.closeBug from rfl,
      show ({ s with dryRun := true } : MonState).cur = s.cur from rfl,
      show ({ s with dryRun := false } : MonState).cur = s.cur from rfl,
      hclose, if_true]
    exact ⟨h.1, h.2.1, h.2.2.1, h.2.2.2.1, h.2.2.2.2.1, h.2.2.2.2.2⟩
  · have hclose' : (s.closeBug && s.cur.keywords.contains (("bugmon").toList)) = false := by
      revert hclose
      cases s.closeBug && s.cur.keywords.contains (("bugmon").toList) <;> simp
    have h := updateCommit_dry s
    simp only [BugMonitor.update, BugMonitor.report]
    simp only [show ({ s with dryRun := true } : MonState).closeBug = s.closeBug
      from rfl,
      show ({ s with dryRun := false } : MonState).closeBug = s.closeBug from rfl,
      show ({ s with dryRun := true } : MonState).cur = s.cur from rfl,
      show ({ s with dryRun := false } : MonState).cur = s.cur from rfl,
      hclose', Bool.false_eq_true, if_false]
    exact ⟨h.1, h.2.1, h.2.2.1, h.2.2.2.1, h.2.2.2.2.1, h.2.2.2.2.2⟩

/-- Counterexample for claim C9 as stated: with one accumulated finding
and no field changes, the dry-run commit keeps the finding queue while
the normal commit empties it, so the internal states differ. -/
theorem claim_C9_counterexample :
    (BugMonitor.update
        { stateA with queue := [("finding").toList], dryRun := true }).1.queue =
      [("finding").toList] ∧
    (BugMonitor.update
        { stateA with queue := [("finding").toList], dryRun := false }).1.queue =
      ([] : List Str) ∧
    ([("finding").toList] : List Str) ≠ ([] : List Str) := by
  decide

/-- Claim C1 (amended): the claim as stated fails because the process
loop of BugMonitor.process runs every selected action, not only the
highest-priority one.  Amended: whenever the bug resolves to a supported
branch, its whiteboard carries a well-formed command set, and the
baseline build fetch and evaluation succeed, the executed action list is
exactly the eligible actions in the fixed order verify, confirm, bisect
— each action class runs precisely when its eligibility predicate holds,
with no mutual exclusion. -/
theorem claim_C1_all_actions_run {env : ExtEnv} {s : MonState}
    {m : Cmds} {br : Str} {bld : Build}
    (hm : NiceCmds m) (hwb : s.cur.whiteboard = canonical m)
    (hor : dictGet m (("origRev").toList) ≠ some none)
    (hbr : BugMonitor.branch env s = some br)
    (hfetch : env.fetch br (("latest").toList) false = some bld)
    (heval : env.evalTc bld = EvalStatus.crashed ∨
      env.evalTc bld = EvalStatus.passed) :
    (BugMonitor.process env s).map Prod.snd =
      some
        ((if BugMonitor.needsVerify m s.cur.status s.resolution
            then [WfAction.verifyF] else []) ++
         (if BugMonitor.needsConfirm m s.cur.status
            then [WfAction.confirmO] else []) ++
         (if BugMonitor.needsBisect m then [WfAction.bisectA] else [])) :=
  BugMonitor.process_executes_all hm hwb hor hbr hfetch heval

/-- Witness for claim C1 on the concrete fixture: both verify and
confirm are eligible and both are executed. -/
theorem claim_C1_witness :
    (BugMonitor.process envA stateA).map Prod.snd =
      some
        ((if BugMonitor.needsVerify cmdsA stateA.cur.status stateA.resolution
            then [WfAction.verifyF] else []) ++
         (if BugMonitor.needsConfirm cmdsA stateA.cur.status
            then [WfAction.confirmO] else []) ++
         (if BugMonitor.needsBisect cmdsA then [WfAction.bisectA] else [])) :=
  @claim_C1_all_actions_run envA stateA cmdsA (("central").toList)
    ⟨("20240101000000").toList, ("0123456789abcdef").toList⟩
    (by decide) (by decide) (by decide) (by decide) rfl (Or.inl rfl)

/-- Counterexample for claim C1 as stated: on a bug whose whiteboard
requests both verify and confirm, both eligibility predicates hold
simultaneously and the run executes two action classes, not at most
one. -/
theorem claim_C1_counterexample :
    BugMonitor.needsVerify cmdsA stateA.cur.status stateA.resolution = true ∧
    BugMonitor.needsConfirm cmdsA stateA.cur.status = true ∧
    (BugMonitor.process envA stateA).map Prod.snd =
      some [WfAction.verifyF, WfAction.confirmO] ∧
    ¬ ([WfAction.verifyF, WfAction.confirmO] : List WfAction).length ≤ 1 := by
  refine ⟨by decide, by decide, by decide, by decide⟩

/-- Claim C4: on a crashed baseline with no confirmed command, the
confirm-open action performs exactly one bisect invocation with
find_fix set to false, and afterwards the whiteboard command set
contains confirmed and no longer contains confirm. -/
theorem claim_C4_confirm_open {env : ExtEnv} {s : MonState} {m : Cmds}
    {baseline : ReproRes}
    (hwb : s.cur.whiteboard = canonical m) (hm : NiceCmds m)
    (hor : dictGet m (("origRev").toList) ≠ some none)
    (hnc : dictMember m (("confirmed").toList) = false)
    (hb : baseline.status = RStatus.crashed) :
    ∃ t, BugMonitor.confirmOpen env s baseline = some t ∧
      t.bisectCalls = s.bisectCalls ++ [false] ∧
      ∃ mf, BugMonitor.commandsGet t.cur.whiteboard = some mf ∧
        dictMember mf (("confirmed").toList) = true ∧
        dictMember mf (("confirm").toList) = false := by
  obtain ⟨t, heq, hbc, hwb', hm'⟩ :=
    BugMonitor.confirmOpen_crashed_unconfirmed hwb hm hor hnc hb
  refine ⟨t, heq, hbc,
    dictRemove
      (dictInsert
        (dictRemove (dictInsert m (("bisected").toList) none)
          (("bisect").toList))
        (("confirmed").toList) none)
      (("confirm").toList), ?_, ?_, ?_⟩
  · rw [hwb']
    exact BugMonitor.commandsGet_canonical hm'
  · rw [dictMember_remove_other (by decide), dictMember_insert_self]
  · exact dictMember_remove_self _ _

/-- Witness for claim C4: a crashed baseline on a bug whose whiteboard
requests confirm. -/
theorem claim_C4_witness :
    ∃ t, BugMonitor.confirmOpen envA
        { stateA with
          cur := { fieldsA with whiteboard := ("[bugmon:confirm]").toList } }
        ⟨RStatus.crashed, some (("bld").toList)⟩ = some t ∧
      t.bisectCalls = stateA.bisectCalls ++ [false] ∧
      ∃ mf, BugMonitor.commandsGet t.cur.whiteboard = some mf ∧
        dictMember mf (("confirmed").toList) = true ∧
        dictMember mf (("confirm").toList) = false :=
  @claim_C4_confirm_open envA
    { stateA with
      cur := { fieldsA with whiteboard := ("[bugmon:confirm]").toList } }
    [((("confirm").toList : Str), none)]
    ⟨RStatus.crashed, some (("bld").toList)⟩
    (by decide) (by decide) (by decide) (by decide) rfl

/-- Claim C5 (amended): the claim as stated fails because on a crashed
verification reproduction the code only queues a finding.  Amended: when
the reproduction at the supposed patch revision yields Crashed, the
verify-fixed action reports that the bug still reproduces (appending
exactly that message to the queue) and leaves the bug status and the
whiteboard — hence the command set — unchanged: no Reopened status and
no re-added confirmed command. -/
theorem claim_C5_verify_crashed {env : ExtEnv} {s : MonState}
    {baseline : ReproRes} (hb : baseline.status = RStatus.crashed) :
    ∃ t, BugMonitor.verifyFixed env s baseline = some t ∧
      t.queue = s.queue ++
        [("Bug is marked as FIXED but still reproduces on ").toList ++
          fmtOpt baseline.buildStr ++ (".").toList] ∧
      t.cur.status = s.cur.status ∧
      t.cur.whiteboard = s.cur.whiteboard := by
  obtain ⟨t, heq, hst, hwb, _, hq⟩ := BugMonitor.verifyFixed_crashed hb
  exact ⟨t, heq, hq, hst, hwb⟩

/-- Witness for claim C5 on the concrete fixture. -/
theorem claim_C5_witness :
    ∃ t, BugMonitor.verifyFixed envA stateA
        ⟨RStatus.crashed, some (("bld").toList)⟩ = some t ∧
      t.queue = stateA.queue ++
        [("Bug is marked as FIXED but still reproduces on ").toList ++
          fmtOpt (some (("bld").toList)) ++ (".").toList] ∧
      t.cur.status = stateA.cur.status ∧
      t.cur.whiteboard = stateA.cur.whiteboard :=
  @claim_C5_verify_crashed envA stateA
    ⟨RStatus.crashed, some (("bld").toList)⟩ rfl

/-- Counterexample for claim C5 as stated: a RESOLVED bug whose
verification reproduction crashes keeps its RESOLVED status (it is not
set to REOPENED) and its command set gains no confirmed entry. -/
theorem claim_C5_counterexample :
    (BugMonitor.verifyFixed envA
        { stateA with cur := { fieldsA with status := ("RESOLVED").toList, whiteboard := ("[bugmon:verify]").toList } }
        ⟨RStatus.crashed, some (("bld").toList)⟩).map
      (fun t => t.cur.status) = some (("RESOLVED").toList) ∧
    ("RESOLVED").toList ≠ ("REOPENED").toList ∧
    (BugMonitor.verifyFixed envA
        { stateA with cur := { fieldsA with status := ("RESOLVED").toList, whiteboard := ("[bugmon:verify]").toList } }
        ⟨RStatus.crashed, some (("bld").toList)⟩).map
      (fun t => (BugMonitor.commandsGet t.cur.whiteboard).map
        (fun mf => dictMember mf (("confirmed").toList))) =
      some (some false) := by
  refine ⟨by decide, by decide, by decide⟩
